import Mathlib

/-!
Verification of the Python renderer (`src/Language/Python.ts`) against its
natural-language specification.

The data model and the renderer operations are shallowly embedded below.
Functions present in `src/Language/Python.ts` are translated directly from
that source.  Collaborator functions that the source imports from modules
not present in the repository snapshot (`../Type`, `../Strings`,
`../ConvenienceRenderer`, the option-passing layer of `../TargetLanguage`,
and the `unicode-properties` package) are modelled from the specification;
each such definition carries a doc comment beginning `Modelled from the
spec:`.
-/

set_option maxRecDepth 4096

namespace PythonRenderer

/-- The type-graph node, from the spec's data model (§3) and the branches of
`matchTypeExhaustive` in `sourceFor` (Python.ts:133-164).  Named types
(`cls`, `enum`, `union`) carry a numeric id giving them the stable identity
the spec requires; a class property is `(assigned name, type, optional)`. -/
inductive Ty where
  | none : Ty
  | any : Ty
  | null : Ty
  | bool : Ty
  | integer : Ty
  | double : Ty
  | string : Ty
  | date : Ty
  | time : Ty
  | dateTime : Ty
  | array (items : Ty) : Ty
  | map (values : Ty) : Ty
  | cls (id : Nat) (properties : List (String × Ty × Bool)) : Ty
  | enum (id : Nat) (cases : List String) : Ty
  | union (id : Nat) (members : List Ty) : Ty

/-- Discriminator for the `Null` variant. -/
def Ty.isNull : Ty → Bool
  | Ty.null => true
  | _ => false

/-- Modelled from the spec: `nullableFromUnion` (imported by Python.ts from
`../Type`, which is not in the snapshot).  Per §3, a union whose member set
is exactly `{T, Null}` is a first-class nullable `T`; this returns that `T`,
and `none` for any other member list. -/
def nullableFromUnion : List Ty → Option Ty
  | [a, b] =>
      if a.isNull then (if b.isNull then Option.none else some b)
      else if b.isNull then some a
      else Option.none
  | _ => Option.none

theorem nullableFromUnion_mem {ms : List Ty} {t : Ty}
    (h : nullableFromUnion ms = some t) : t ∈ ms := by
  match ms with
  | [a, b] =>
    simp only [nullableFromUnion] at h
    by_cases ha : a.isNull <;> by_cases hb : b.isNull <;>
      simp [ha, hb] at h <;> simp [h]
  | [] => simp [nullableFromUnion] at h
  | [a] => simp [nullableFromUnion] at h
  | a :: b :: c :: r => simp [nullableFromUnion] at h

theorem nullableFromUnion_sizeLt {ms : List Ty} {t : Ty} {id : Nat}
    (h : nullableFromUnion ms = some t) :
    sizeOf t < sizeOf (Ty.union id ms) := by
  have hm := nullableFromUnion_mem h
  have := List.sizeOf_lt_of_mem hm
  simp only [Ty.union.sizeOf_spec]
  omega

/-- Modelled from the spec: `intercalate` (imported by Python.ts from
`../Support`, not in the snapshot): joins the fragments of a list with a
separator between consecutive ones (§4.4 "joining `sourceFor(member)` for
each member with a union separator"). -/
def intercalateStr (sep : String) : List String → String
  | [] => ""
  | [s] => s
  | s :: r :: rest => s ++ sep ++ intercalateStr sep (r :: rest)

/-- `sourceFor` (Python.ts:133-164), the type-directed syntax renderer.
`inlineUnions` is the renderer's constructor flag; `nf` stands for the
external `nameForNamedType` (the Namer's result, §6).  `Sourcelike`
fragments are flattened to plain strings; the `panic` on the sentinel branch
becomes `Except.error`. -/
def sourceFor (inlineUnions : Bool) (nf : Nat → String) (t : Ty) :
    Except String String :=
  match t with
  | Ty.none => Except.error "None type should have been replaced"
  | Ty.any => Except.ok "Any"
  | Ty.null => Except.ok "None"
  | Ty.bool => Except.ok "bool"
  | Ty.integer => Except.ok "int"
  | Ty.double => Except.ok "float"
  | Ty.string => Except.ok "str"
  | Ty.array items =>
      (sourceFor inlineUnions nf items).map (fun s => "list[" ++ s ++ "]")
  | Ty.cls id _ => Except.ok (nf id)
  | Ty.map values =>
      (sourceFor inlineUnions nf values).map (fun s => "Map[str, " ++ s ++ "]")
  | Ty.enum id _ => Except.ok (nf id)
  | Ty.union id members =>
      match h : nullableFromUnion members with
      | some u =>
          (sourceFor inlineUnions nf u).map (fun s => "Optional[" ++ s ++ "]")
      | Option.none =>
          if inlineUnions then
            (members.attach.mapM
              (fun m => sourceFor inlineUnions nf m.1)).map
                (intercalateStr " | ")
          else Except.ok (nf id)
  | Ty.date => Except.ok "date"
  | Ty.time => Except.ok "time"
  | Ty.dateTime => Except.ok "datetime"
termination_by sizeOf t
decreasing_by
  · simp only [Ty.array.sizeOf_spec]; omega
  · simp only [Ty.map.sizeOf_spec]; omega
  · exact nullableFromUnion_sizeLt h
  · have := List.sizeOf_lt_of_mem m.2
    simp only [Ty.union.sizeOf_spec]
    omega

mutual

/-- The spec's invariant (§3) that the sentinel `None` never appears in the
type graph, phrased as an executable check over one type. -/
def noneFree : Ty → Bool
  | Ty.none => false
  | Ty.array t => noneFree t
  | Ty.map t => noneFree t
  | Ty.cls _ ps => noneFreeProps ps
  | Ty.union _ ms => noneFreeList ms
  | _ => true

def noneFreeList : List Ty → Bool
  | [] => true
  | t :: ts => noneFree t && noneFreeList ts

def noneFreeProps : List (String × Ty × Bool) → Bool
  | [] => true
  | (_, t, _) :: ps => noneFree t && noneFreeProps ps

end

mutual

/-- The spec's well-formedness condition on unions (§3: a union's member set
has size at least 2), phrased as an executable check over one type. -/
def wellFormed : Ty → Bool
  | Ty.array t => wellFormed t
  | Ty.map t => wellFormed t
  | Ty.cls _ ps => wellFormedProps ps
  | Ty.union _ ms => decide (2 ≤ ms.length) && wellFormedList ms
  | _ => true

def wellFormedList : List Ty → Bool
  | [] => true
  | t :: ts => wellFormed t && wellFormedList ts

def wellFormedProps : List (String × Ty × Bool) → Bool
  | [] => true
  | (_, t, _) :: ps => wellFormed t && wellFormedProps ps

end

@[simp] theorem isNull_null : Ty.null.isNull = true := rfl

theorem noneFreeList_mem {ms : List Ty} (h : noneFreeList ms = true) :
    ∀ t ∈ ms, noneFree t = true := by
  induction ms with
  | nil => intro t ht; cases ht
  | cons a as ih =>
    intro t ht
    simp only [noneFreeList, Bool.and_eq_true] at h
    rcases List.mem_cons.mp ht with rfl | hmem
    · exact h.1
    · exact ih h.2 t hmem

theorem wellFormedList_mem {ms : List Ty} (h : wellFormedList ms = true) :
    ∀ t ∈ ms, wellFormed t = true := by
  induction ms with
  | nil => intro t ht; cases ht
  | cons a as ih =>
    intro t ht
    simp only [wellFormedList, Bool.and_eq_true] at h
    rcases List.mem_cons.mp ht with rfl | hmem
    · exact h.1
    · exact ih h.2 t hmem

theorem sourceFor_union_nullable {inl : Bool} {nf : Nat → String} {id : Nat}
    {ms : List Ty} {u : Ty} (h : nullableFromUnion ms = some u) :
    sourceFor inl nf (Ty.union id ms) =
      (sourceFor inl nf u).map (fun s => "Optional[" ++ s ++ "]") := by
  rw [sourceFor]
  split
  · rename_i u' heq
    rw [h] at heq
    injection heq with h2
    subst h2
    rfl
  · rename_i heq
    rw [h] at heq
    cases heq

theorem sourceFor_union_inline {nf : Nat → String} {id : Nat} {ms : List Ty}
    (h : nullableFromUnion ms = Option.none) :
    sourceFor true nf (Ty.union id ms) =
      (ms.attach.mapM (fun m => sourceFor true nf m.1)).map
        (intercalateStr " | ") := by
  rw [sourceFor]
  split
  · rename_i u' heq
    rw [h] at heq
    cases heq
  · simp

theorem sourceFor_union_named {nf : Nat → String} {id : Nat} {ms : List Ty}
    (h : nullableFromUnion ms = Option.none) :
    sourceFor false nf (Ty.union id ms) = Except.ok (nf id) := by
  rw [sourceFor]
  split
  · rename_i u' heq
    rw [h] at heq
    cases heq
  · simp

theorem exceptMapM_ok {α β : Type} {f : α → Except String β} (P : β → Prop) :
    ∀ {l : List α}, (∀ a ∈ l, ∃ b, f a = Except.ok b ∧ P b) →
      ∃ bs, l.mapM f = Except.ok bs ∧
        List.Forall₂ (fun a b => f a = Except.ok b ∧ P b) l bs := by
  intro l
  induction l with
  | nil => intro _; exact ⟨[], rfl, List.Forall₂.nil⟩
  | cons a as ih =>
    intro h
    obtain ⟨b, hb, hpb⟩ := h a (List.mem_cons_self a as)
    obtain ⟨bs, hbs, hall⟩ := ih (fun x hx => h x (List.mem_cons_of_mem a hx))
    refine ⟨b :: bs, ?_, List.Forall₂.cons ⟨hb, hpb⟩ hall⟩
    rw [List.mapM_cons, hb, hbs]
    rfl

theorem forallSecond_of_forall₂ {α β : Type} {r : α → β → Prop} :
    ∀ {l : List α} {bs : List β}, List.Forall₂ r l bs →
      ∀ b ∈ bs, ∃ a ∈ l, r a b := by
  intro l bs h
  induction h with
  | nil => intro b hb; cases hb
  | cons hr _ ih =>
    intro b hb
    rcases List.mem_cons.mp hb with rfl | hmem
    · exact ⟨_, List.mem_cons_self _ _, hr⟩
    · obtain ⟨a, ha, har⟩ := ih b hmem
      exact ⟨a, List.mem_cons_of_mem _ ha, har⟩

theorem str_empty_of_length_zero {s : String} (h : s.length = 0) : s = "" := by
  cases s with
  | mk data =>
    cases data with
    | nil => rfl
    | cons a as => simp [String.length] at h

theorem str_append_ne_empty_left (a b : String) (ha : a ≠ "") :
    a ++ b ≠ "" := by
  intro h
  apply ha
  have hlen : (a ++ b).length = 0 := by rw [h]; rfl
  rw [String.length_append] at hlen
  exact str_empty_of_length_zero (by omega)

theorem intercalateStr_ne_empty (sep : String) (l : List String)
    (hl : l ≠ []) (h : ∀ s ∈ l, s ≠ "") : intercalateStr sep l ≠ "" := by
  match l with
  | [] => exact absurd rfl hl
  | [s] => exact h s (List.mem_singleton.mpr rfl)
  | s :: r :: rest =>
    show s ++ sep ++ intercalateStr sep (r :: rest) ≠ ""
    exact str_append_ne_empty_left _ _
      (str_append_ne_empty_left _ _ (h s (List.mem_cons_self _ _)))

/-- C3: for every union whose members are exactly a non-null type `m`
together with `Null` (in either order), `sourceFor` renders the
optional-wrapper form `Optional[...]` around the rendering of `m` — never an
explicit two-branch union — regardless of the `declare-unions` option. -/
theorem claim_C3 (inl : Bool) (nf : Nat → String) (id : Nat) (m : Ty)
    (ms : List Ty) (hm : m.isNull = false)
    (hms : ms = [m, Ty.null] ∨ ms = [Ty.null, m]) :
    sourceFor inl nf (Ty.union id ms) =
      (sourceFor inl nf m).map (fun s => "Optional[" ++ s ++ "]") := by
  have hn : nullableFromUnion ms = some m := by
    rcases hms with rfl | rfl <;> simp [nullableFromUnion, hm]
  rw [sourceFor]
  split
  · rename_i u heq
    rw [hn] at heq
    injection heq with h2
    subst h2
    rfl
  · rename_i heq
    rw [hn] at heq
    cases heq

/-- Witness for C3 at the spec's own example, a union with member set
`{String, Null}`. -/
theorem claim_C3_witness :
    sourceFor true (fun _ => "U") (Ty.union 0 [Ty.string, Ty.null]) =
      Except.ok "Optional[str]" := by
  have h := claim_C3 true (fun _ => "U") 0 Ty.string [Ty.string, Ty.null]
    rfl (Or.inl rfl)
  rw [h]
  simp [sourceFor, Except.map]

theorem sourceFor_ok_of_noneFree (inl : Bool) (nf : Nat → String)
    (hnf : ∀ i, nf i ≠ "") :
    ∀ t, noneFree t = true → wellFormed t = true →
      ∃ s, sourceFor inl nf t = Except.ok s ∧ s ≠ "" := by
  have key : ∀ n t, sizeOf t ≤ n → noneFree t = true → wellFormed t = true →
      ∃ s, sourceFor inl nf t = Except.ok s ∧ s ≠ "" := by
    intro n
    induction n using Nat.strong_induction_on with
    | _ n ih =>
      intro t hsize hnfree hwf
      match t with
      | Ty.none => simp [noneFree] at hnfree
      | Ty.any => exact ⟨"Any", by rw [sourceFor], by decide⟩
      | Ty.null => exact ⟨"None", by rw [sourceFor], by decide⟩
      | Ty.bool => exact ⟨"bool", by rw [sourceFor], by decide⟩
      | Ty.integer => exact ⟨"int", by rw [sourceFor], by decide⟩
      | Ty.double => exact ⟨"float", by rw [sourceFor], by decide⟩
      | Ty.string => exact ⟨"str", by rw [sourceFor], by decide⟩
      | Ty.date => exact ⟨"date", by rw [sourceFor], by decide⟩
      | Ty.time => exact ⟨"time", by rw [sourceFor], by decide⟩
      | Ty.dateTime => exact ⟨"datetime", by rw [sourceFor], by decide⟩
      | Ty.cls id ps => exact ⟨nf id, by rw [sourceFor], hnf id⟩
      | Ty.enum id cs => exact ⟨nf id, by rw [sourceFor], hnf id⟩
      | Ty.array items =>
        have hlt : sizeOf items < n := by
          have : sizeOf items < sizeOf (Ty.array items) := by
            simp only [Ty.array.sizeOf_spec]; omega
          omega
        obtain ⟨s, hs, hne⟩ := ih (sizeOf items) hlt items le_rfl
          (by simpa [noneFree] using hnfree) (by simpa [wellFormed] using hwf)
        exact ⟨"list[" ++ s ++ "]", by rw [sourceFor, hs]; rfl,
          str_append_ne_empty_left ("list[" ++ s) "]"
            (str_append_ne_empty_left "list[" s (by decide))⟩
      | Ty.map values =>
        have hlt : sizeOf values < n := by
          have : sizeOf values < sizeOf (Ty.map values) := by
            simp only [Ty.map.sizeOf_spec]; omega
          omega
        obtain ⟨s, hs, hne⟩ := ih (sizeOf values) hlt values le_rfl
          (by simpa [noneFree] using hnfree) (by simpa [wellFormed] using hwf)
        exact ⟨"Map[str, " ++ s ++ "]", by rw [sourceFor, hs]; rfl,
          str_append_ne_empty_left ("Map[str, " ++ s) "]"
            (str_append_ne_empty_left "Map[str, " s (by decide))⟩
      | Ty.union id ms =>
        simp only [noneFree] at hnfree
        simp only [wellFormed, Bool.and_eq_true, decide_eq_true_eq] at hwf
        have hmemlt : ∀ u ∈ ms, sizeOf u < n := by
          intro u hu
          have h1 := List.sizeOf_lt_of_mem hu
          have h2 : sizeOf (Ty.union id ms) ≤ n := hsize
          simp only [Ty.union.sizeOf_spec] at h2
          omega
        cases hn : nullableFromUnion ms with
        | some u =>
          have hu : u ∈ ms := nullableFromUnion_mem hn
          obtain ⟨s, hs, hne⟩ := ih (sizeOf u) (hmemlt u hu) u le_rfl
            (noneFreeList_mem hnfree u hu) (wellFormedList_mem hwf.2 u hu)
          refine ⟨"Optional[" ++ s ++ "]", ?_,
            str_append_ne_empty_left ("Optional[" ++ s) "]"
              (str_append_ne_empty_left "Optional[" s (by decide))⟩
          rw [sourceFor_union_nullable hn, hs]
          rfl
        | none =>
          cases inl with
          | false => exact ⟨nf id, sourceFor_union_named hn, hnf id⟩
          | true =>
            have hall : ∀ m ∈ ms.attach,
                ∃ b, sourceFor true nf m.1 = Except.ok b ∧ b ≠ "" := by
              intro m _
              exact ih (sizeOf m.1) (hmemlt m.1 m.2) m.1 le_rfl
                (noneFreeList_mem hnfree m.1 m.2)
                (wellFormedList_mem hwf.2 m.1 m.2)
            obtain ⟨bs, hbs, hfa⟩ := exceptMapM_ok (fun b => b ≠ "") hall
            refine ⟨intercalateStr " | " bs, ?_, ?_⟩
            · rw [sourceFor_union_inline hn, hbs]
              rfl
            · apply intercalateStr_ne_empty
              · have hlen := List.Forall₂.length_eq hfa
                rw [List.length_attach] at hlen
                intro hnil
                rw [hnil] at hlen
                simp only [List.length_nil] at hlen
                have h2 := hwf.1
                omega
              · intro s hsmem
                obtain ⟨a, _, _, hne⟩ := forallSecond_of_forall₂ hfa s hsmem
                exact hne
  intro t
  exact key (sizeOf t) t le_rfl

/-- C4: `sourceFor` is total and exhaustive over the `Type` variants: on the
sentinel `None` it always fails fatally with a diagnostic and produces no
output, and on every sentinel-free, well-formed type (given nonempty assigned
names) it returns a non-empty syntax fragment. -/
theorem claim_C4 :
    (∀ (inl : Bool) (nf : Nat → String),
      sourceFor inl nf Ty.none =
        Except.error "None type should have been replaced") ∧
    (∀ (inl : Bool) (nf : Nat → String) (t : Ty), (∀ i, nf i ≠ "") →
      noneFree t = true → wellFormed t = true →
      ∃ s, sourceFor inl nf t = Except.ok s ∧ s ≠ "") :=
  ⟨fun inl nf => by rw [sourceFor],
   fun inl nf t hnf h1 h2 => sourceFor_ok_of_noneFree inl nf hnf t h1 h2⟩

/-- Witness for C4: the sentinel branch errors, and a concrete sentinel-free
type gets a non-empty fragment. -/
theorem claim_C4_witness :
    sourceFor true (fun i => "N" ++ toString i) Ty.none =
        Except.error "None type should have been replaced" ∧
    ∃ s, sourceFor true (fun i => "N" ++ toString i) (Ty.array Ty.integer) =
        Except.ok s ∧ s ≠ "" :=
  ⟨claim_C4.1 true (fun i => "N" ++ toString i),
   claim_C4.2 true (fun i => "N" ++ toString i) (Ty.array Ty.integer)
     (fun i => str_append_ne_empty_left _ _ (by decide))
     (by decide) (by decide)⟩

/-- The `declare-unions` option's default value (Python.ts:45). -/
def declareUnionsDefault : Bool := false

/-- Modelled from the spec: the orchestration layer (TargetLanguage, not in
the snapshot) invokes the renderer with its `inlineUnions` constructor flag;
per §6, `declare-unions = false` means multi-member unions are rendered
inline wherever referenced, so the flag is the option's negation. -/
def inlineUnionsOfOption (declareUnions : Bool) : Bool := !declareUnions

/-- `emitClass` (Python.ts:166-186): header, `__init__` parameter list (one
parameter per property, in order, its type from `sourceFor`), then one
like-named assignment per property, in the same order.  Indentation
bookkeeping is out of scope (§1); each emitted line is a plain string. -/
def emitClass (inl : Bool) (nf : Nat → String)
    (ps : List (String × Ty × Bool)) (className : String) :
    Except String (List String) :=
  (ps.mapM (fun p => (sourceFor inl nf p.2.1).map
      (fun s => p.1 ++ ": " ++ s ++ ","))).map
    (fun fieldLines =>
      ("class " ++ className ++ "(object):") ::
      "def __init__(self," :: (fieldLines ++ ["):"] ++
      ps.map (fun p => "self." ++ p.1 ++ " = " ++ p.1)))

/-- The per-case lines of `emitEnum`, with the running `count` explicit
(the `let count = 0; ... count++` of Python.ts:190-194). -/
def emitEnumCases (count : Nat) : List String → List String
  | [] => []
  | n :: ns => (n ++ " = " ++ toString count) :: emitEnumCases (count + 1) ns

/-- `emitEnum` (Python.ts:188-197): header, one case line per case with its
ordinal, then a blank line.  The ordinal counter is a local starting at 0 in
each invocation. -/
def emitEnum (cases : List String) (enumName : String) : List String :=
  ("class " ++ enumName ++ "(Enum):") :: (emitEnumCases 0 cases ++ [""])

/-- `emitUnion` (Python.ts:199-207): `Name = Union[` header, one member line
per member from `sourceFor`, closing bracket.  Note this member function is
never referenced by `emitSourceStructure`. -/
def emitUnion (inl : Bool) (nf : Nat → String) (ms : List Ty)
    (unionName : String) : Except String (List String) :=
  (ms.mapM (fun t => (sourceFor inl nf t).map (fun s => s ++ ","))).map
    (fun memberLines => (unionName ++ " = Union[") :: (memberLines ++ ["]"]))

/-- `forEachSpecificNamedType` (Python.ts:211-219): reverses the supplied
order, then emits each listed named type once ("Have to reverse class order
because Python will not reference a type before it is declared").
Blank-line bookkeeping is out of scope (§1). -/
def forEachSpecificNamedType {α : Type} (types : List α)
    (f : α → Except String (List String)) : Except String (List String) :=
  (types.reverse.mapM f).map List.flatten

/-- The classes of the graph, in the supplied order. -/
def classesOf (graph : List Ty) : List (Nat × List (String × Ty × Bool)) :=
  graph.filterMap (fun t => match t with
    | Ty.cls id ps => some (id, ps)
    | _ => Option.none)

/-- The enums of the graph, in the supplied order. -/
def enumsOf (graph : List Ty) : List (Nat × List String) :=
  graph.filterMap (fun t => match t with
    | Ty.enum id cs => some (id, cs)
    | _ => Option.none)

/-- The unions of the graph needing a standalone named declaration: the
non-collapsed multi-member unions, when unions are not being inlined. -/
def namedUnionsOf (inl : Bool) (graph : List Ty) : List (Nat × List Ty) :=
  if inl then []
  else graph.filterMap (fun t => match t with
    | Ty.union id ms =>
        (match nullableFromUnion ms with
          | some _ => Option.none
          | Option.none => some (id, ms))
    | _ => Option.none)

/-- Modelled from the spec: `forEachNamedType` (ConvenienceRenderer, not in
the snapshot).  It walks the graph's named types — classes, then enums, then
(only when a union handler is supplied) the named unions, which §6 places
after classes and enums — handing each group to `forEachSpecificNamedType`
with the corresponding handler. -/
def forEachNamedType (inl : Bool) (graph : List Ty)
    (classF : Nat × List (String × Ty × Bool) → Except String (List String))
    (enumF : Nat × List String → Except String (List String))
    (unionF : Option (Nat × List Ty → Except String (List String))) :
    Except String (List String) := do
  let cl ← forEachSpecificNamedType (classesOf graph) classF
  let en ← forEachSpecificNamedType (enumsOf graph) enumF
  let un ← match unionF with
    | some f => forEachSpecificNamedType (namedUnionsOf inl graph) f
    | Option.none => pure []
  pure (cl ++ en ++ un)

/-- `emitSourceStructure` (Python.ts:221-227): optional leading comments,
then `forEachNamedType` invoked with `emitClass` and `emitEnum` only — the
source supplies no union handler (`emitUnion` is never referenced). -/
def emitSourceStructure (inl : Bool) (nf : Nat → String) (graph : List Ty)
    (leadingComments : Option (List String)) : Except String (List String) :=
  (forEachNamedType inl graph
      (fun c => emitClass inl nf c.2 (nf c.1))
      (fun e => Except.ok (emitEnum e.2 (nf e.1)))
      Option.none).map
    (fun body =>
      (match leadingComments with
        | some ls => ls.map (fun l => "# " ++ l)
        | Option.none => []) ++ body)

/-- True when the type mentions any named type (class, enum or union)
anywhere inside it. -/
def mentionsNamed : Ty → Bool
  | Ty.array t => mentionsNamed t
  | Ty.map t => mentionsNamed t
  | Ty.cls _ _ => true
  | Ty.enum _ _ => true
  | Ty.union _ _ => true
  | _ => false

/-- C1 (exhibits the code bug): the option defaults to false, and `sourceFor`
follows the option for references — inline sum-type expression when
`declare-unions` is false, reference by assigned name when it is true — but
with `declare-unions = true` the render emits no standalone union
declaration at all: `emitSourceStructure` supplies no union handler, so a
graph whose one named type is a multi-member union renders to nothing. -/
theorem claim_C1 :
    declareUnionsDefault = false ∧
    sourceFor (inlineUnionsOfOption false) (fun _ => "U")
        (Ty.union 1 [Ty.integer, Ty.string]) = Except.ok "int | str" ∧
    sourceFor (inlineUnionsOfOption true) (fun _ => "U")
        (Ty.union 1 [Ty.integer, Ty.string]) = Except.ok "U" ∧
    emitSourceStructure (inlineUnionsOfOption true) (fun _ => "U")
        [Ty.union 1 [Ty.integer, Ty.string]] Option.none = Except.ok [] := by
  refine ⟨rfl, ?_, ?_, ?_⟩
  · simp [sourceFor, nullableFromUnion, Ty.isNull, inlineUnionsOfOption,
      List.mapM, List.mapM.loop, Except.map, intercalateStr]
    rfl
  · simp [sourceFor, nullableFromUnion, Ty.isNull, inlineUnionsOfOption]
  · simp [emitSourceStructure, forEachNamedType, forEachSpecificNamedType,
      classesOf, enumsOf, namedUnionsOf, emitClass, emitEnum, emitEnumCases,
      sourceFor, nullableFromUnion, Ty.isNull, inlineUnionsOfOption,
      List.mapM, List.mapM.loop, Except.map, List.filterMap, bind,
      Except.bind, pure, Except.pure]

/-- C2 (exhibits the code bug): with `declare-unions = true`, a graph with a
class and a reachable multi-member union yields one declaration for the
class but none for the union — the render's output contains no
`U = Union[` declaration header, so not every reachable named type gets a
declaration. -/
theorem claim_C2 :
    emitSourceStructure (inlineUnionsOfOption true)
        (fun n => if n = 0 then "A" else "U")
        [Ty.cls 0 [("u", Ty.union 1 [Ty.integer, Ty.string], false)],
         Ty.union 1 [Ty.integer, Ty.string]] Option.none =
      Except.ok ["class A(object):", "def __init__(self,", "u: U,", "):",
        "self.u = u"] ∧
    "U = Union[" ∉ ["class A(object):", "def __init__(self,", "u: U,", "):",
        "self.u = u"] := by
  constructor
  · simp [emitSourceStructure, forEachNamedType, forEachSpecificNamedType,
      classesOf, enumsOf, namedUnionsOf, emitClass, emitEnum, emitEnumCases,
      sourceFor, nullableFromUnion, Ty.isNull, inlineUnionsOfOption,
      List.mapM, List.mapM.loop, Except.map, List.filterMap, bind,
      Except.bind, pure, Except.pure]
  · decide

theorem emitEnumCases_length (cs : List String) :
    ∀ count, (emitEnumCases count cs).length = cs.length := by
  induction cs with
  | nil => intro count; rfl
  | cons a as ih => intro count; simp [emitEnumCases, ih]

theorem emitEnumCases_get :
    ∀ (cs : List String) (count j : Nat) (c : String), cs[j]? = some c →
      (emitEnumCases count cs)[j]? = some (c ++ " = " ++ toString (count + j)) := by
  intro cs
  induction cs with
  | nil => intro count j c h; simp at h
  | cons a as ih =>
    intro count j c h
    cases j with
    | zero =>
      simp at h
      subst h
      simp [emitEnumCases]
    | succ j' =>
      simp only [List.getElem?_cons_succ] at h
      have := ih (count + 1) j' c h
      simp only [emitEnumCases, List.getElem?_cons_succ]
      rw [this]
      have harith : count + 1 + j' = count + (j' + 1) := by omega
      rw [harith]

/-- C6: enum cases are emitted in their original order with ordinals forming
the strictly increasing sequence 0, 1, 2, … (the case at index `j` gets
ordinal `j`), and the ordinal counter is local to one declaration: rendering
two enums in one pass produces each block by a fresh `emitEnum` whose
counter starts again at 0. -/
theorem claim_C6 (nf : Nat → String) (e1 e2 : Nat × List String) :
    (∀ (cs : List String) (name : String) (j : Nat) (c : String),
      cs[j]? = some c →
      (emitEnum cs name)[j + 1]? = some (c ++ " = " ++ toString j)) ∧
    forEachSpecificNamedType [e1, e2]
        (fun e => Except.ok (emitEnum e.2 (nf e.1))) =
      Except.ok (emitEnum e2.2 (nf e2.1) ++ emitEnum e1.2 (nf e1.1)) := by
  constructor
  · intro cs name j c h
    have := emitEnumCases_get cs 0 j c h
    simp only [emitEnum, List.getElem?_cons_succ]
    rw [List.getElem?_append_left, this]
    · simp
    · have hj : j < cs.length := by
        by_contra hge
        rw [List.getElem?_eq_none (by omega)] at h
        cases h
      rw [emitEnumCases_length]
      exact hj
  · simp [forEachSpecificNamedType, List.mapM, List.mapM.loop, Except.map,
      bind, Except.bind, pure, Except.pure]

/-- Witness for C6 at the spec's example: enum `Color` with cases
`[Red, Green, Blue]` gets ordinals 0, 1, 2, and a second enum rendered in
the same pass restarts at 0. -/
theorem claim_C6_witness :
    (emitEnum ["Red", "Green", "Blue"] "Color")[3]? =
      some ("Blue" ++ " = " ++ toString 2) ∧
    forEachSpecificNamedType [(0, ["Red", "Green", "Blue"]),
        (1, ["On", "Off"])]
        (fun e => Except.ok (emitEnum e.2
          (if e.1 = 0 then "Color" else "Switch"))) =
      Except.ok (emitEnum ["On", "Off"] "Switch" ++
        emitEnum ["Red", "Green", "Blue"] "Color") :=
  ⟨(claim_C6 (fun _ => "") (0, []) (0, [])).1 ["Red", "Green", "Blue"]
      "Color" 2 "Blue" rfl,
   (claim_C6 (fun n => if n = 0 then "Color" else "Switch")
      (0, ["Red", "Green", "Blue"]) (1, ["On", "Off"])).2⟩

theorem except_bind_ok {β γ : Type} {x : Except String β}
    {g : β → Except String γ} {c : γ} (h : (x >>= g) = Except.ok c) :
    ∃ b, x = Except.ok b ∧ g b = Except.ok c := by
  cases x with
  | error e => simp [Bind.bind, Except.bind] at h
  | ok b => exact ⟨b, rfl, by simpa [Bind.bind, Except.bind] using h⟩

theorem except_map_ok {β γ : Type} {x : Except String β} {g : β → γ}
    {c : γ} (h : x.map g = Except.ok c) :
    ∃ b, x = Except.ok b ∧ g b = c := by
  cases x with
  | error e => simp [Except.map] at h
  | ok b => exact ⟨b, rfl, by simpa [Except.map] using h⟩

theorem mapM_map_ok {α β γ : Type} {f : α → Except String β}
    {h : α → β → γ} :
    ∀ {l : List α} {rs : List γ},
      l.mapM (fun a => (f a).map (h a)) = Except.ok rs →
      ∃ bs, l.mapM f = Except.ok bs ∧ bs.length = l.length ∧
        rs = List.zipWith h l bs := by
  intro l
  induction l with
  | nil =>
    intro rs hr
    simp only [List.mapM_nil] at hr
    have hrs : rs = [] := by
      have h2 : (Except.ok [] : Except String (List γ)) = Except.ok rs := hr
      injection h2 with h3
      exact h3.symm
    exact ⟨[], rfl, rfl, by simp [hrs]⟩
  | cons a as ih =>
    intro rs hr
    rw [List.mapM_cons] at hr
    obtain ⟨r0, h1, h2⟩ := except_bind_ok hr
    obtain ⟨rest, h3, h4⟩ := except_bind_ok h2
    obtain ⟨b, hfa, hhb⟩ := except_map_ok h1
    obtain ⟨bs, hbs, hlen, hzip⟩ := ih h3
    have hrs : rs = r0 :: rest := by
      have : (Except.ok (r0 :: rest) : Except String (List γ)) =
          Except.ok rs := h4
      injection this with h5
      exact h5.symm
    refine ⟨b :: bs, ?_, by simp [hlen], ?_⟩
    · rw [List.mapM_cons, hfa, hbs]
      rfl
    · rw [hrs, hzip, ← hhb]
      rfl

/-- C7: for every class, the emitted field/parameter lines and the
initializer assignments follow exactly the upstream property order: the
`j`-th parameter line is built from the `j`-th property (its type from
`sourceFor`), and each assignment line assigns the field from the like-named
parameter, again in property order — never resorted by name. -/
theorem claim_C7 (inl : Bool) (nf : Nat → String)
    (ps : List (String × Ty × Bool)) (className : String)
    (lines : List String)
    (hemit : emitClass inl nf ps className = Except.ok lines) :
    ∃ srcs, ps.mapM (fun p => sourceFor inl nf p.2.1) = Except.ok srcs ∧
      srcs.length = ps.length ∧
      lines = ("class " ++ className ++ "(object):") ::
        "def __init__(self," ::
        (List.zipWith (fun p s => p.1 ++ ": " ++ s ++ ",") ps srcs ++
         ["):"] ++ ps.map (fun p => "self." ++ p.1 ++ " = " ++ p.1)) := by
  unfold emitClass at hemit
  obtain ⟨fieldLines, hfl, hstruct⟩ := except_map_ok hemit
  obtain ⟨bs, hbs, hlen, hzip⟩ := mapM_map_ok hfl
  exact ⟨bs, hbs, hlen, by rw [← hstruct, hzip]⟩

/-- Witness for C7 at the spec's own end-to-end example
`Point {x: Integer, y: Integer}`. -/
theorem claim_C7_witness :
    ∃ srcs, ([("x", Ty.integer, false), ("y", Ty.integer, false)].mapM
        (fun p => sourceFor false (fun _ => "Point") p.2.1) =
        Except.ok srcs) ∧
      srcs.length = [("x", Ty.integer, false), ("y", Ty.integer, false)].length ∧
      ["class Point(object):", "def __init__(self,", "x: int,", "y: int,",
        "):", "self.x = x", "self.y = y"] =
        ("class " ++ "Point" ++ "(object):") :: "def __init__(self," ::
        (List.zipWith (fun p s => p.1 ++ ": " ++ s ++ ",")
          [("x", Ty.integer, false), ("y", Ty.integer, false)] srcs ++
         ["):"] ++ [("x", Ty.integer, false), ("y", Ty.integer, false)].map
           (fun p => "self." ++ p.1 ++ " = " ++ p.1)) :=
  claim_C7 false (fun _ => "Point")
    [("x", Ty.integer, false), ("y", Ty.integer, false)] "Point"
    ["class Point(object):", "def __init__(self,", "x: int,", "y: int,",
      "):", "self.x = x", "self.y = y"]
    (by simp [emitClass, sourceFor, List.mapM, List.mapM.loop, Except.map,
      bind, Except.bind, pure, Except.pure])

theorem getElem?_decomp {α : Type} :
    ∀ {l : List α} {i : Nat} {a : α}, l[i]? = some a →
      ∃ l1 l2, l = l1 ++ a :: l2 ∧ l1.length = i := by
  intro l
  induction l with
  | nil => intro i a h; simp at h
  | cons x xs ih =>
    intro i a h
    cases i with
    | zero =>
      simp at h
      subst h
      exact ⟨[], xs, rfl, rfl⟩
    | succ i' =>
      simp only [List.getElem?_cons_succ] at h
      obtain ⟨l1, l2, hl, hlen⟩ := ih h
      exact ⟨x :: l1, l2, by rw [hl]; rfl, by simp [hlen]⟩

theorem getElem?_decomp₂ {α : Type} {l : List α} {i j : Nat} {a b : α}
    (hij : i < j) (ha : l[i]? = some a) (hb : l[j]? = some b) :
    ∃ l1 l2 l3, l = l1 ++ a :: (l2 ++ b :: l3) := by
  obtain ⟨l1, l2, hl, hlen⟩ := getElem?_decomp ha
  subst hl
  rw [List.getElem?_append_right (by omega)] at hb
  rw [hlen] at hb
  have hji : j - i = (j - i - 1) + 1 := by omega
  rw [hji, List.getElem?_cons_succ] at hb
  obtain ⟨m1, m2, hm, _⟩ := getElem?_decomp hb
  exact ⟨l1, m1, m2, by rw [hm]⟩

theorem reverse_decomp {α : Type} {ts t1 t2 t3 : List α} {a b : α}
    (h : ts = t1 ++ a :: (t2 ++ b :: t3)) :
    ts.reverse = t3.reverse ++ b :: (t2.reverse ++ a :: t1.reverse) := by
  subst h
  simp

theorem mapM_append_ok {α β : Type} {f : α → Except String β}
    {l1 l2 : List α} {rs : List β}
    (h : (l1 ++ l2).mapM f = Except.ok rs) :
    ∃ r1 r2, l1.mapM f = Except.ok r1 ∧ l2.mapM f = Except.ok r2 ∧
      rs = r1 ++ r2 := by
  rw [List.mapM_append] at h
  obtain ⟨r1, h1, h2⟩ := except_bind_ok h
  obtain ⟨r2, h3, h4⟩ := except_bind_ok h2
  refine ⟨r1, r2, h1, h3, ?_⟩
  have : (Except.ok (r1 ++ r2) : Except String (List β)) = Except.ok rs := h4
  injection this with h5
  exact h5.symm

theorem mapM_cons_ok {α β : Type} {f : α → Except String β}
    {a : α} {l : List α} {rs : List β}
    (h : (a :: l).mapM f = Except.ok rs) :
    ∃ r0 r, f a = Except.ok r0 ∧ l.mapM f = Except.ok r ∧ rs = r0 :: r := by
  rw [List.mapM_cons] at h
  obtain ⟨r0, h1, h2⟩ := except_bind_ok h
  obtain ⟨r, h3, h4⟩ := except_bind_ok h2
  refine ⟨r0, r, h1, h3, ?_⟩
  have : (Except.ok (r0 :: r) : Except String (List β)) = Except.ok rs := h4
  injection this with h5
  exact h5.symm

/-- C5: take classes `A` and `B` where `A` references `B` and `B` references
nothing, supplied (per the spec, in the inverse of declaration order) with
`A` strictly before `B`.  The emitter traverses the full reversal of the
supplied order, and consequently `B`'s declaration block appears strictly
before `A`'s in the output lines. -/
theorem claim_C5 (inl : Bool) (nf : Nat → String)
    (ts : List (Nat × List (String × Ty × Bool))) (i j : Nat)
    (A B : Nat × List (String × Ty × Bool)) (hij : i < j)
    (hA : ts[i]? = some A) (hB : ts[j]? = some B)
    (href : ∃ p ∈ A.2, p.2.1 = Ty.cls B.1 B.2)
    (hBnoref : B.2.all (fun p => !(mentionsNamed p.2.1)) = true) :
    (∀ f : Nat × List (String × Ty × Bool) → Except String (List String),
      forEachSpecificNamedType ts f =
        (ts.reverse.mapM f).map List.flatten) ∧
    (∀ lines, forEachSpecificNamedType ts
        (fun c => emitClass inl nf c.2 (nf c.1)) = Except.ok lines →
      ∃ pre lB mid lA post,
        emitClass inl nf B.2 (nf B.1) = Except.ok lB ∧
        emitClass inl nf A.2 (nf A.1) = Except.ok lA ∧
        lines = pre ++ lB ++ (mid ++ lA ++ post)) := by
  refine ⟨fun f => rfl, ?_⟩
  intro lines hemit
  obtain ⟨t1, t2, t3, hts⟩ := getElem?_decomp₂ hij hA hB
  have hrev := reverse_decomp hts
  unfold forEachSpecificNamedType at hemit
  obtain ⟨rs, hrs, hflat⟩ := except_map_ok hemit
  rw [hrev] at hrs
  obtain ⟨r1, rest1, hr1, hrest1, hrs1⟩ := mapM_append_ok hrs
  obtain ⟨lB, rest2, hlB, hrest2, hrs2⟩ := mapM_cons_ok hrest1
  obtain ⟨r2, rest3, hr2, hrest3, hrs3⟩ := mapM_append_ok hrest2
  obtain ⟨lA, r3, hlA, hr3, hrs4⟩ := mapM_cons_ok hrest3
  refine ⟨r1.flatten, lB, r2.flatten, lA, r3.flatten, hlB, hlA, ?_⟩
  rw [← hflat, hrs1, hrs2, hrs3, hrs4]
  simp

/-- Witness for C5: concrete classes `A` (one property of type class `B`)
and `B` (no properties), supplied as `[A, B]`; `B`'s block precedes `A`'s. -/
theorem claim_C5_witness :
    ∃ pre lB mid lA post,
      emitClass false (fun n => if n = 0 then "A" else "B") []
          ((fun n => if n = 0 then "A" else "B") 1) = Except.ok lB ∧
      emitClass false (fun n => if n = 0 then "A" else "B")
          [("b", Ty.cls 1 [], false)]
          ((fun n => if n = 0 then "A" else "B") 0) = Except.ok lA ∧
      ["class B(object):", "def __init__(self,", "):", "class A(object):",
        "def __init__(self,", "b: B,", "):", "self.b = b"] =
        pre ++ lB ++ (mid ++ lA ++ post) :=
  (claim_C5 false (fun n => if n = 0 then "A" else "B")
      [(0, [("b", Ty.cls 1 [], false)]), (1, [])] 0 1
      (0, [("b", Ty.cls 1 [], false)]) (1, []) (by omega) rfl rfl
      ⟨("b", Ty.cls 1 [], false), by simp, rfl⟩ rfl).2
    ["class B(object):", "def __init__(self,", "):", "class A(object):",
      "def __init__(self,", "b: B,", "):", "self.b = b"]
    (by simp [forEachSpecificNamedType, emitClass, sourceFor, List.mapM,
      List.mapM.loop, Except.map, bind, Except.bind, pure, Except.pure])

/-- ASCII uppercase-letter test (code units 65-90). -/
def isUp (c : Char) : Bool := decide (65 ≤ c.toNat ∧ c.toNat ≤ 90)

/-- ASCII lowercase-letter test (code units 97-122). -/
def isLo (c : Char) : Bool := decide (97 ≤ c.toNat ∧ c.toNat ≤ 122)

/-- ASCII digit test (code units 48-57). -/
def isDi (c : Char) : Bool := decide (48 ≤ c.toNat ∧ c.toNat ≤ 57)

/-- ASCII letter test. -/
def isAsciiLetter (c : Char) : Bool := isUp c || isLo c

/-- ASCII alphanumeric test. -/
def isAlnum (c : Char) : Bool := isUp c || isLo c || isDi c

/-- ASCII uppercasing of one character (identity outside a-z). -/
def toUp (c : Char) : Char := if isLo c then Char.ofNat (c.toNat - 32) else c

/-- ASCII lowercasing of one character (identity outside A-Z). -/
def toLo (c : Char) : Char := if isUp c then Char.ofNat (c.toNat + 32) else c

/-- Modelled from the spec: `isAscii` (imported by Python.ts from
`../Strings`, not in the snapshot): the code unit is below 128. -/
def isAscii (c : Char) : Bool := decide (c.toNat < 128)

/-- Modelled from the spec: `isLetterOrUnderscoreOrDigit` (../Strings, not in
the snapshot); under the `isAscii` guard of `legalizeName` only the ASCII
letters, the underscore and the ASCII digits pass. -/
def isLetterOrUnderscoreOrDigit (c : Char) : Bool :=
  isAsciiLetter c || decide (c.toNat = 95) || isDi c

/-- Modelled from the spec: `legalizeCharacters` (../Strings, not in the
snapshot): strips characters failing the predicate (§4.1: disallowed units
are dropped, not substituted). -/
def legalizeCharacters (pred : Char → Bool) (s : List Char) : List Char :=
  s.filter pred

/-- `legalizeName` (Python.ts:80). -/
def legalizeName : List Char → List Char :=
  legalizeCharacters (fun cp => isAscii cp && isLetterOrUnderscoreOrDigit cp)

/-- Modelled from the spec: the `unicode-properties` tables consulted by
Python.ts (a third-party package, not in the snapshot), abstracted as the
two queried functions. -/
structure UnicodeProps where
  isAlphabetic : Char → Bool
  getCategory : Char → String

/-- `isStartCharacter` (Python.ts:69-71): alphabetic or underscore. -/
def isStartCharacter (u : UnicodeProps) (c : Char) : Bool :=
  u.isAlphabetic c || decide (c.toNat = 95)

/-- `isPartCharacter` (Python.ts:73-76): decimal digit, connector
punctuation, non-spacing or spacing-combining mark, or a start character. -/
def isPartCharacter (u : UnicodeProps) (c : Char) : Bool :=
  ["Nd", "Pc", "Mn", "Mc"].contains (u.getCategory c) || isStartCharacter u c

/-- Conformance of the abstract Unicode tables with the standard on the
ASCII range: ASCII letters are alphabetic, ASCII digits are not, and ASCII
digits have general category Nd. -/
def AsciiConformant (u : UnicodeProps) : Prop :=
  (∀ c, isAsciiLetter c = true → u.isAlphabetic c = true) ∧
  (∀ c, isDi c = true → u.isAlphabetic c = false) ∧
  (∀ c, isDi c = true → u.getCategory c = "Nd")

/-- C8: every character of `legalizeName`'s output is an allowed
identifier-part character per the Unicode general-category predicate
`isPartCharacter`, and the output is a sublist of the input — disallowed
units are dropped, never substituted. -/
theorem claim_C8 (u : UnicodeProps) (hu : AsciiConformant u)
    (s : List Char) :
    (∀ c ∈ legalizeName s, isPartCharacter u c = true) ∧
    (legalizeName s).Sublist s := by
  constructor
  · intro c hc
    have hpred := List.of_mem_filter hc
    simp only [Bool.and_eq_true] at hpred
    have hl : isLetterOrUnderscoreOrDigit c = true := hpred.2
    simp only [isLetterOrUnderscoreOrDigit, Bool.or_eq_true,
      decide_eq_true_eq] at hl
    rcases hl with (hlet | hus) | hdig
    · simp [isPartCharacter, isStartCharacter, hu.1 c hlet]
    · simp [isPartCharacter, isStartCharacter, hus]
    · simp [isPartCharacter, hu.2.2 c hdig]
  · exact List.filter_sublist s

/-- A concrete ASCII-only instantiation of the Unicode tables. -/
def asciiTable : UnicodeProps :=
  ⟨fun c => isAsciiLetter c,
   fun c => if isDi c then "Nd"
     else if c.toNat = 95 then "Pc" else "Zz"⟩

theorem isDi_not_letter {c : Char} (h : isDi c = true) :
    isAsciiLetter c = false := by
  simp only [isDi, decide_eq_true_eq] at h
  simp only [isAsciiLetter, isUp, isLo, Bool.or_eq_false_iff,
    decide_eq_false_iff_not]
  omega

theorem asciiTable_conformant : AsciiConformant asciiTable :=
  ⟨fun c h => h,
   fun c h => isDi_not_letter h,
   fun c h => by simp [asciiTable, h]⟩

/-- Witness for C8 at a concrete label with a separator and punctuation. -/
theorem claim_C8_witness :
    (∀ c ∈ legalizeName ("snake_case-1!".data),
      isPartCharacter asciiTable c = true) ∧
    (legalizeName ("snake_case-1!".data)).Sublist ("snake_case-1!".data) :=
  claim_C8 asciiTable asciiTable_conformant ("snake_case-1!".data)

/-- `forbiddenNames` (Python.ts:78). -/
def forbiddenNames : List String := ["type", "id"]

/-- `forbiddenNamesForGlobalNamespace` (Python.ts:101-103). -/
def forbiddenNamesForGlobalNamespace : List String := forbiddenNames

/-- `ForbiddenWordsInfo` (imported from ConvenienceRenderer; shape as used
at Python.ts:117-119). -/
structure ForbiddenWordsInfo where
  names : List String
  includeGlobalForbidden : Bool

/-- `forbiddenForClassProperties` (Python.ts:117-119). -/
def forbiddenForClassProperties : ForbiddenWordsInfo := ⟨[], true⟩

/-- Modelled from the spec: the effective forbidden-word set the external
Namer receives for a class's property namespace (assembled by
ConvenienceRenderer, not in the snapshot): the local names plus, when the
flag is set, the global forbidden set. -/
def effectiveForbiddenForClassProperties : List String :=
  forbiddenForClassProperties.names ++
    (if forbiddenForClassProperties.includeGlobalForbidden then
      forbiddenNamesForGlobalNamespace else [])

/-- Modelled from the spec: the external Namer never assigns a name from
the forbidden set of the scope (§6); a property-name assignment is valid
exactly when it avoids the effective forbidden set. -/
def validPropertyAssignment (n : String) : Prop :=
  n ∉ effectiveForbiddenForClassProperties

/-- C10: the global namespace's forbidden words are exactly `type` and
`id`; the forbidden set for every class's property namespace includes the
global set; hence no valid property assignment is the bare name `type` or
`id`. -/
theorem claim_C10 :
    forbiddenNamesForGlobalNamespace = ["type", "id"] ∧
    (∀ w ∈ forbiddenNamesForGlobalNamespace,
      w ∈ effectiveForbiddenForClassProperties) ∧
    (∀ n, validPropertyAssignment n → n ≠ "type" ∧ n ≠ "id") := by
  refine ⟨rfl, ?_, ?_⟩
  · intro w hw
    simp only [effectiveForbiddenForClassProperties,
      forbiddenForClassProperties]
    simpa using hw
  · intro n hn
    simp only [validPropertyAssignment, effectiveForbiddenForClassProperties,
      forbiddenForClassProperties, forbiddenNamesForGlobalNamespace,
      forbiddenNames] at hn
    simp at hn
    exact hn

/-- Witness for C10: the assignment `name` is valid and therefore is
neither `type` nor `id`. -/
theorem claim_C10_witness : "name" ≠ "type" ∧ "name" ≠ "id" :=
  claim_C10.2.2 "name"
    (by simp [validPropertyAssignment, effectiveForbiddenForClassProperties,
      forbiddenForClassProperties, forbiddenNamesForGlobalNamespace,
      forbiddenNames])

theorem toNat_ofNat_ascii {n : Nat} (h : n < 128) :
    (Char.ofNat n).toNat = n := by
  have hv : Nat.isValidChar n := Or.inl (by omega)
  simp [Char.ofNat, hv, Char.ofNatAux, Char.toNat, UInt32.toNat,
    BitVec.toNat_ofNatLt]

theorem isLo_toUp {c : Char} (h : isLo c = true) : isUp (toUp c) = true := by
  simp only [isLo, decide_eq_true_eq] at h
  simp only [toUp, isLo, decide_eq_true_eq, if_pos h]
  simp only [isUp, decide_eq_true_eq, toNat_ofNat_ascii (by omega : c.toNat - 32 < 128)]
  omega

theorem toUp_eq_of_not_lo {c : Char} (h : isLo c = false) : toUp c = c := by
  simp [toUp, h]

theorem toLo_eq_of_not_up {c : Char} (h : isUp c = false) : toLo c = c := by
  simp [toLo, h]

theorem isUp_not_lo {c : Char} (h : isUp c = true) : isLo c = false := by
  simp only [isUp, decide_eq_true_eq] at h
  simp only [isLo, decide_eq_false_iff_not]
  omega

theorem isLo_not_up {c : Char} (h : isLo c = true) : isUp c = false := by
  simp only [isLo, decide_eq_true_eq] at h
  simp only [isUp, decide_eq_false_iff_not]
  omega

theorem isDi_not_lo {c : Char} (h : isDi c = true) : isLo c = false := by
  simp only [isDi, decide_eq_true_eq] at h
  simp only [isLo, decide_eq_false_iff_not]
  omega

theorem isDi_not_up {c : Char} (h : isDi c = true) : isUp c = false := by
  simp only [isDi, decide_eq_true_eq] at h
  simp only [isUp, decide_eq_false_iff_not]
  omega

theorem toUp_eq_of_up {c : Char} (h : isUp c = true) : toUp c = c :=
  toUp_eq_of_not_lo (isUp_not_lo h)

theorem toUp_eq_of_di {c : Char} (h : isDi c = true) : toUp c = c :=
  toUp_eq_of_not_lo (isDi_not_lo h)

theorem toLo_eq_of_lo {c : Char} (h : isLo c = true) : toLo c = c :=
  toLo_eq_of_not_up (isLo_not_up h)

theorem toLo_eq_of_di {c : Char} (h : isDi c = true) : toLo c = c :=
  toLo_eq_of_not_up (isDi_not_up h)

theorem isUp_toLo {c : Char} (h : isUp c = true) : isLo (toLo c) = true := by
  simp only [isUp, decide_eq_true_eq] at h
  simp only [toLo, isUp, decide_eq_true_eq, if_pos h]
  simp only [isLo, decide_eq_true_eq, toNat_ofNat_ascii (by omega : c.toNat + 32 < 128)]
  omega

theorem isAlnum_toUp {c : Char} (h : isAlnum c = true) :
    isAlnum (toUp c) = true := by
  simp only [isAlnum, Bool.or_eq_true] at h ⊢
  rcases h with (hu | hl) | hd
  · exact Or.inl (Or.inl (by rw [toUp_eq_of_up hu]; exact hu))
  · exact Or.inl (Or.inl (isLo_toUp hl))
  · rw [toUp_eq_of_di hd]; exact Or.inr hd

theorem isAlnum_toLo {c : Char} (h : isAlnum c = true) :
    isAlnum (toLo c) = true := by
  simp only [isAlnum, Bool.or_eq_true] at h ⊢
  rcases h with (hu | hl) | hd
  · exact Or.inl (Or.inr (isUp_toLo hu))
  · rw [toLo_eq_of_lo hl]; exact Or.inl (Or.inr hl)
  · rw [toLo_eq_of_di hd]; exact Or.inr hd

theorem isAlnum_of_lo {c : Char} (h : isLo c = true) : isAlnum c = true := by
  simp [isAlnum, h]

theorem isAlnum_of_up {c : Char} (h : isUp c = true) : isAlnum c = true := by
  simp [isAlnum, h]

theorem isAlnum_of_di {c : Char} (h : isDi c = true) : isAlnum c = true := by
  simp [isAlnum, h]

theorem alnum_cases {c : Char} (h : isAlnum c = true) :
    isUp c = true ∨ isLo c = true ∨ isDi c = true := by
  simp only [isAlnum, Bool.or_eq_true] at h
  tauto

theorem legalizeName_keeps_alnum {c : Char} (h : isAlnum c = true) :
    (isAscii c && isLetterOrUnderscoreOrDigit c) = true := by
  have hlt : c.toNat < 128 := by
    rcases alnum_cases h with hu | hl | hd
    · simp only [isUp, decide_eq_true_eq] at hu; omega
    · simp only [isLo, decide_eq_true_eq] at hl; omega
    · simp only [isDi, decide_eq_true_eq] at hd; omega
  simp only [isAscii, isLetterOrUnderscoreOrDigit, isAsciiLetter,
    Bool.and_eq_true, Bool.or_eq_true, decide_eq_true_eq]
  rcases alnum_cases h with hu | hl | hd
  · exact ⟨hlt, Or.inl (Or.inl (Or.inl hu))⟩
  · exact ⟨hlt, Or.inl (Or.inl (Or.inr hl))⟩
  · exact ⟨hlt, Or.inr hd⟩

theorem legalizeName_fixes {w : List Char} (h : ∀ c ∈ w, isAlnum c = true) :
    legalizeName w = w := by
  unfold legalizeName legalizeCharacters
  rw [List.filter_eq_self]
  intro c hc
  exact legalizeName_keeps_alnum (h c hc)

/-- The uppercase run consumed into one acronym token: consecutive uppercase
characters, stopping before an uppercase that is followed by a lowercase
(which instead starts a capitalized token). -/
def upperRun : List Char → List Char × List Char
  | [] => ([], [])
  | c :: cs =>
    if isUp c then
      match cs with
      | [] => ([c], [])
      | d :: _ =>
        if isLo d then ([], c :: cs)
        else
          let p := upperRun cs
          (c :: p.1, p.2)
    else ([], c :: cs)

theorem upperRun_nil : upperRun [] = ([], []) := rfl

theorem upperRun_single {a : Char} (ha : isUp a = true) :
    upperRun [a] = ([a], []) := by
  conv_lhs => rw [upperRun.eq_def]
  simp [ha]

theorem upperRun_stop {a e : Char} {es : List Char} (ha : isUp a = true)
    (he : isLo e = true) : upperRun (a :: e :: es) = ([], a :: e :: es) := by
  conv_lhs => rw [upperRun.eq_def]
  simp [ha, he]

theorem upperRun_go {a e : Char} {es : List Char} (ha : isUp a = true)
    (he : isLo e = false) :
    upperRun (a :: e :: es) =
      (a :: (upperRun (e :: es)).1, (upperRun (e :: es)).2) := by
  conv_lhs => rw [upperRun.eq_def]
  simp [ha, he]

theorem upperRun_notUp {a : Char} {as : List Char} (ha : isUp a = false) :
    upperRun (a :: as) = ([], a :: as) := by
  conv_lhs => rw [upperRun.eq_def]
  simp [ha]

theorem upperRun_append : ∀ l : List Char,
    (upperRun l).1 ++ (upperRun l).2 = l := by
  intro l
  induction l with
  | nil => rfl
  | cons c cs ih =>
    by_cases hc : isUp c = true
    · cases cs with
      | nil => rw [upperRun_single hc]; rfl
      | cons d ds =>
        by_cases hd : isLo d = true
        · rw [upperRun_stop hc hd]; rfl
        · rw [upperRun_go hc (by simpa using hd)]
          simp only [List.cons_append, List.cons.injEq, true_and]
          exact ih
    · rw [upperRun_notUp (by simpa using hc)]; rfl

theorem upperRun_all_up : ∀ l : List Char,
    ∀ c ∈ (upperRun l).1, isUp c = true := by
  intro l
  induction l with
  | nil => intro c hc; cases hc
  | cons a as ih =>
    intro c hc
    by_cases ha : isUp a = true
    · cases as with
      | nil =>
        rw [upperRun_single ha] at hc
        simp at hc
        subst hc; exact ha
      | cons d ds =>
        by_cases hd : isLo d = true
        · rw [upperRun_stop ha hd] at hc
          cases hc
        · rw [upperRun_go ha (by simpa using hd)] at hc
          rcases List.mem_cons.mp hc with rfl | hmem
          · exact ha
          · exact ih c hmem
    · rw [upperRun_notUp (by simpa using ha)] at hc
      cases hc

theorem upperRun_rest_head : ∀ l : List Char, ∀ d : Char,
    ((upperRun l).2).head? = some d →
      isLo d = false ∨ (upperRun l).1 = [] := by
  intro l
  induction l with
  | nil => intro d hd; cases hd
  | cons a as ih =>
    intro d hd
    by_cases ha : isUp a = true
    · cases as with
      | nil => rw [upperRun_single ha] at hd; cases hd
      | cons e es =>
        by_cases he : isLo e = true
        · exact Or.inr (by rw [upperRun_stop ha he])
        · rw [upperRun_go ha (by simpa using he)] at hd ⊢
          rcases ih d hd with h | h
          · exact Or.inl h
          · have happ := upperRun_append (e :: es)
            rw [h, List.nil_append] at happ
            rw [happ] at hd
            simp at hd
            subst hd
            exact Or.inl (by simpa using he)
    · exact Or.inr (by rw [upperRun_notUp (by simpa using ha)])

theorem dropWhile_length_le (p : Char → Bool) (cs : List Char) :
    (cs.dropWhile p).length ≤ cs.length :=
  (List.dropWhile_sublist p).length_le

theorem upperRun_rest_length {c : Char} {cs a r : List Char}
    (h : upperRun (c :: cs) = (a, r)) (ha : a ≠ []) :
    r.length < (c :: cs).length := by
  have happ := upperRun_append (c :: cs)
  rw [h] at happ
  have : a.length + r.length = (c :: cs).length := by
    rw [← List.length_append, happ]
  have hal : 0 < a.length := List.length_pos.mpr ha
  omega

/-- Modelled from the spec: `splitIntoWords` (../Strings, not in the
snapshot).  §4.2: tokens are maximal runs sharing one case/category
signature; boundaries fall at camelCase transitions (an uppercase run
followed by a lowercase yields the run minus its last character as an
acronym token, the last uppercase starting a capitalized token), at
letter/digit transitions, and at separator characters (anything failing all
the classes), which are dropped. -/
def splitIntoWords : List Char → List (List Char)
  | [] => []
  | c :: cs =>
    if isLo c then
      (c :: cs.takeWhile isLo) :: splitIntoWords (cs.dropWhile isLo)
    else if isDi c then
      (c :: cs.takeWhile isDi) :: splitIntoWords (cs.dropWhile isDi)
    else if isUp c then
      match h : upperRun (c :: cs) with
      | ([], _) =>
          (c :: cs.takeWhile isLo) :: splitIntoWords (cs.dropWhile isLo)
      | (a :: as, r) => (a :: as) :: splitIntoWords r
    else splitIntoWords cs
termination_by l => l.length
decreasing_by
  · simp only [List.length_cons]
    exact Nat.lt_succ_of_le (dropWhile_length_le _ _)
  · simp only [List.length_cons]
    exact Nat.lt_succ_of_le (dropWhile_length_le _ _)
  · simp only [List.length_cons]
    exact Nat.lt_succ_of_le (dropWhile_length_le _ _)
  · exact upperRun_rest_length h (by simp)
  · simp

theorem splitIntoWords_nil : splitIntoWords [] = [] := by
  rw [splitIntoWords.eq_def]

theorem splitIntoWords_lo {c : Char} {cs : List Char} (hc : isLo c = true) :
    splitIntoWords (c :: cs) =
      (c :: cs.takeWhile isLo) :: splitIntoWords (cs.dropWhile isLo) := by
  conv_lhs => rw [splitIntoWords.eq_def]
  simp [hc]

theorem splitIntoWords_di {c : Char} {cs : List Char} (hc : isDi c = true) :
    splitIntoWords (c :: cs) =
      (c :: cs.takeWhile isDi) :: splitIntoWords (cs.dropWhile isDi) := by
  conv_lhs => rw [splitIntoWords.eq_def]
  simp [hc, isDi_not_lo hc]

theorem splitIntoWords_sep {c : Char} {cs : List Char}
    (h1 : isLo c = false) (h2 : isDi c = false) (h3 : isUp c = false) :
    splitIntoWords (c :: cs) = splitIntoWords cs := by
  conv_lhs => rw [splitIntoWords.eq_def]
  simp [h1, h2, h3]

theorem splitIntoWords_cap {c : Char} {cs : List Char} (hc : isUp c = true)
    (hur : (upperRun (c :: cs)).1 = []) :
    splitIntoWords (c :: cs) =
      (c :: cs.takeWhile isLo) :: splitIntoWords (cs.dropWhile isLo) := by
  conv_lhs => rw [splitIntoWords.eq_def]
  simp only [isUp_not_lo hc, if_false, isDi_not_up, hc, if_true]
  have h2 : isDi c = false := by
    by_contra hdi
    rw [isDi_not_up (by simpa using hdi)] at hc
    cases hc
  simp only [h2, if_false, Bool.false_eq_true]
  split
  · rfl
  · rename_i a as r heq
    rw [heq] at hur
    simp at hur

theorem splitIntoWords_acr {c : Char} {cs : List Char} {a : Char}
    {as r : List Char} (hc : isUp c = true)
    (hur : upperRun (c :: cs) = (a :: as, r)) :
    splitIntoWords (c :: cs) = (a :: as) :: splitIntoWords r := by
  conv_lhs => rw [splitIntoWords.eq_def]
  have h1 : isLo c = false := isUp_not_lo hc
  have h2 : isDi c = false := by
    by_contra hdi
    rw [isDi_not_up (by simpa using hdi)] at hc
    cases hc
  simp only [h1, if_false, h2, hc, if_true, Bool.false_eq_true]
  split
  · rename_i heq
    rw [heq] at hur
    cases hur
  · rename_i a' as' r' heq
    rw [heq] at hur
    injection hur with hur1 hur2
    injection hur1 with h3 h4
    subst h3; subst h4; subst hur2
    rfl

/-- Modelled from the spec: `allLowerWordStyle` (../Strings): the
all-lowercase transform. -/
def allLowerWordStyle (w : List Char) : List Char := w.map toLo

/-- Modelled from the spec: `allUpperWordStyle` (../Strings): the
all-uppercase transform. -/
def allUpperWordStyle (w : List Char) : List Char := w.map toUp

/-- Modelled from the spec: `firstUpperWordStyle` (../Strings): the
uppercase-first-letter transform. -/
def firstUpperWordStyle : List Char → List Char
  | [] => []
  | c :: cs => toUp c :: cs.map toLo

/-- A token whose detected casing is "already all-upper" (§4.3), selecting
the acronym-preserving transform. -/
def isAllUpper (w : List Char) : Bool := w.all isUp && !w.isEmpty

/-- Modelled from the spec: `combineWords` (../Strings, not in the
snapshot), at the call shape of Python.ts:84-93 (empty separator).  Each
token is legalized; emptied tokens are dropped; if nothing remains, a
synthesized placeholder `empty` is used (§4.1 legalization underflow).  The
first token takes the first-word transform (the acronym variant when its
detected casing is all-upper), later tokens the rest-word transforms; the
results are concatenated, and when the combined result starts with a
character failing the start predicate, a synthesized `_` prefix keeps the
identifier legal (§4.3). -/
def combineWords (ws : List (List Char)) (legalize : List Char → List Char)
    (firstS restS firstA restA : List Char → List Char)
    (isStart : Char → Bool) : List Char :=
  let lws0 := (ws.map legalize).filter (fun w => !w.isEmpty)
  let lws := if lws0.isEmpty then [['e', 'm', 'p', 't', 'y']] else lws0
  let body :=
    match lws with
    | [] => []
    | w :: rest =>
        (if isAllUpper w then firstA w else firstS w) ++
        (rest.map (fun v => if isAllUpper v then restA v else restS v)).flatten
  match body with
  | [] => []
  | b :: _ => if isStart b then body else '_' :: body

/-- `pythonNameStyle` (Python.ts:82-94): split into words, then combine with
the case policy — uppercase: leading word first-upper (all-upper for
acronyms); lowercase: leading word all-lower; following words first-upper
(all-upper for acronyms). -/
def pythonNameStyle (u : UnicodeProps) (uppercase : Bool)
    (original : String) : String :=
  ⟨combineWords (splitIntoWords original.data) legalizeName
    (if uppercase then firstUpperWordStyle else allLowerWordStyle)
    firstUpperWordStyle
    (if uppercase then allUpperWordStyle else allLowerWordStyle)
    allUpperWordStyle
    (isStartCharacter u)⟩

/-- A token that is a nonempty lowercase run. -/
def lowerRun (w : List Char) : Prop := w ≠ [] ∧ ∀ c ∈ w, isLo c = true

/-- A token that is a nonempty digit run. -/
def digitRun (w : List Char) : Prop := w ≠ [] ∧ ∀ c ∈ w, isDi c = true

/-- A capitalized token: one uppercase then lowercase characters. -/
def capRun (w : List Char) : Prop :=
  ∃ c t, w = c :: t ∧ isUp c = true ∧ ∀ x ∈ t, isLo x = true

/-- An acronym token: a nonempty uppercase run. -/
def acrRun (w : List Char) : Prop := w ≠ [] ∧ ∀ c ∈ w, isUp c = true

/-- Every token the splitter produces has one of the four run shapes. -/
def wordShape (w : List Char) : Prop :=
  lowerRun w ∨ digitRun w ∨ capRun w ∨ acrRun w

theorem wordShape_ne {w : List Char} (h : wordShape w) : w ≠ [] := by
  rcases h with h | h | h | h
  · exact h.1
  · exact h.1
  · obtain ⟨c, t, rfl, _, _⟩ := h
    simp
  · exact h.1

theorem mapFix {α : Type} {l : List α} {f : α → α}
    (h : ∀ x ∈ l, f x = x) : l.map f = l := by
  induction l with
  | nil => rfl
  | cons a as ih =>
    simp only [List.map_cons, h a (List.mem_cons_self a as),
      ih (fun x hx => h x (List.mem_cons_of_mem a hx))]

theorem isLo_toUp_false {c : Char} (h : isAlnum c = true) :
    isLo (toUp c) = false := by
  rcases alnum_cases h with hu | hl | hd
  · rw [toUp_eq_of_up hu]; exact isUp_not_lo hu
  · exact isUp_not_lo (isLo_toUp hl)
  · rw [toUp_eq_of_di hd]; exact isDi_not_lo hd

theorem isUp_toLo_false {c : Char} (h : isAlnum c = true) :
    isUp (toLo c) = false := by
  rcases alnum_cases h with hu | hl | hd
  · exact isLo_not_up (isUp_toLo hu)
  · rw [toLo_eq_of_lo hl]; exact isLo_not_up hl
  · rw [toLo_eq_of_di hd]; exact isDi_not_up hd

theorem allUpper_fix {w : List Char} (h : ∀ c ∈ w, isUp c = true) :
    allUpperWordStyle w = w :=
  mapFix (fun c hc => toUp_eq_of_up (h c hc))

theorem allLower_fix_lower {w : List Char} (h : ∀ c ∈ w, isLo c = true) :
    allLowerWordStyle w = w :=
  mapFix (fun c hc => toLo_eq_of_lo (h c hc))

theorem allLower_fix_digit {w : List Char} (h : ∀ c ∈ w, isDi c = true) :
    allLowerWordStyle w = w :=
  mapFix (fun c hc => toLo_eq_of_di (h c hc))

theorem firstUpper_fix_digit {w : List Char} (h : digitRun w) :
    firstUpperWordStyle w = w := by
  obtain ⟨hne, hall⟩ := h
  cases w with
  | nil => rfl
  | cons c cs =>
    simp only [firstUpperWordStyle]
    rw [toUp_eq_of_di (hall c (List.mem_cons_self c cs)),
      mapFix (fun x hx => toLo_eq_of_di (hall x (List.mem_cons_of_mem c hx)))]

theorem firstUpper_fix_cap {w : List Char} (h : capRun w) :
    firstUpperWordStyle w = w := by
  obtain ⟨c, t, rfl, hc, ht⟩ := h
  simp only [firstUpperWordStyle]
  rw [toUp_eq_of_up hc, mapFix (fun x hx => toLo_eq_of_lo (ht x hx))]

theorem isAllUpper_of_acr {w : List Char} (h : acrRun w) :
    isAllUpper w = true := by
  obtain ⟨hne, hall⟩ := h
  simp only [isAllUpper, Bool.and_eq_true, List.all_eq_true,
    Bool.not_eq_true']
  exact ⟨hall, by simpa using hne⟩

theorem isAllUpper_all {w : List Char} (h : isAllUpper w = true) :
    ∀ c ∈ w, isUp c = true := by
  simp only [isAllUpper, Bool.and_eq_true, List.all_eq_true] at h
  exact h.1

/-- The rest-word transform at the renderer's call shape. -/
def restStyle (w : List Char) : List Char :=
  if isAllUpper w then allUpperWordStyle w else firstUpperWordStyle w

/-- The first-word transform at the renderer's call shape, per case policy. -/
def firstStyle (uppercase : Bool) (w : List Char) : List Char :=
  if isAllUpper w then
    (if uppercase then allUpperWordStyle w else allLowerWordStyle w)
  else
    (if uppercase then firstUpperWordStyle w else allLowerWordStyle w)

theorem restStyle_fix {w : List Char}
    (h : digitRun w ∨ capRun w ∨ acrRun w) : restStyle w = w := by
  unfold restStyle
  by_cases hau : isAllUpper w = true
  · rw [if_pos hau]
    exact allUpper_fix (isAllUpper_all hau)
  · rw [if_neg hau]
    rcases h with h | h | h
    · exact firstUpper_fix_digit h
    · exact firstUpper_fix_cap h
    · exact absurd (isAllUpper_of_acr h) hau

theorem firstStyle_fix_true {w : List Char}
    (h : digitRun w ∨ capRun w ∨ acrRun w) : firstStyle true w = w := by
  unfold firstStyle
  by_cases hau : isAllUpper w = true
  · rw [if_pos hau, if_pos rfl]
    exact allUpper_fix (isAllUpper_all hau)
  · rw [if_neg hau, if_pos rfl]
    rcases h with h | h | h
    · exact firstUpper_fix_digit h
    · exact firstUpper_fix_cap h
    · exact absurd (isAllUpper_of_acr h) hau

theorem firstStyle_false_eq (w : List Char) :
    firstStyle false w = allLowerWordStyle w := by
  unfold firstStyle
  by_cases hau : isAllUpper w = true <;> simp [hau]

theorem firstStyle_fix_false {w : List Char}
    (h : lowerRun w ∨ digitRun w) : firstStyle false w = w := by
  rw [firstStyle_false_eq]
  rcases h with h | h
  · exact allLower_fix_lower h.2
  · exact allLower_fix_digit h.2

theorem split_flatten : ∀ cs : List Char, (∀ c ∈ cs, isAlnum c = true) →
    (splitIntoWords cs).flatten = cs := by
  intro cs
  induction cs using splitIntoWords.induct with
  | case1 => intro _; rw [splitIntoWords_nil]; rfl
  | case2 d tail hd ih =>
    intro halnum
    rw [splitIntoWords_lo hd]
    simp only [List.flatten_cons]
    rw [ih (fun c hc => halnum c (List.mem_cons_of_mem d
      ((List.dropWhile_sublist _).subset hc)))]
    simp [List.takeWhile_append_dropWhile]
  | case3 d tail h1 hd ih =>
    intro halnum
    rw [splitIntoWords_di hd]
    simp only [List.flatten_cons]
    rw [ih (fun c hc => halnum c (List.mem_cons_of_mem d
      ((List.dropWhile_sublist _).subset hc)))]
    simp [List.takeWhile_append_dropWhile]
  | case4 d tail h1 h2 h3 snd hur ih =>
    intro halnum
    rw [splitIntoWords_cap h3 (by rw [hur])]
    simp only [List.flatten_cons]
    rw [ih (fun c hc => halnum c (List.mem_cons_of_mem d
      ((List.dropWhile_sublist _).subset hc)))]
    simp [List.takeWhile_append_dropWhile]
  | case5 d tail h1 h2 h3 a as r hur ih =>
    intro halnum
    rw [splitIntoWords_acr h3 hur]
    simp only [List.flatten_cons]
    have happ := upperRun_append (d :: tail)
    rw [hur] at happ
    rw [ih (fun c hc => halnum c (by
      rw [← happ]
      exact List.mem_append_right _ hc))]
    exact happ
  | case6 d tail h1 h2 h3 ih =>
    intro halnum
    rcases alnum_cases (halnum d (List.mem_cons_self d tail)) with h | h | h
    · exact absurd h h3
    · exact absurd h h1
    · exact absurd h h2

theorem split_shapes : ∀ cs : List Char, ∀ w ∈ splitIntoWords cs,
    wordShape w := by
  intro cs
  induction cs using splitIntoWords.induct with
  | case1 =>
    intro w hw
    rw [splitIntoWords_nil] at hw
    cases hw
  | case2 d tail hd ih =>
    intro w hw
    rw [splitIntoWords_lo hd] at hw
    rcases List.mem_cons.mp hw with rfl | hmem
    · refine Or.inl ⟨by simp, ?_⟩
      intro c hc
      rcases List.mem_cons.mp hc with rfl | hc2
      · exact hd
      · exact List.mem_takeWhile_imp hc2
    · exact ih w hmem
  | case3 d tail h1 hd ih =>
    intro w hw
    rw [splitIntoWords_di hd] at hw
    rcases List.mem_cons.mp hw with rfl | hmem
    · refine Or.inr (Or.inl ⟨by simp, ?_⟩)
      intro c hc
      rcases List.mem_cons.mp hc with rfl | hc2
      · exact hd
      · exact List.mem_takeWhile_imp hc2
    · exact ih w hmem
  | case4 d tail h1 h2 h3 snd hur ih =>
    intro w hw
    rw [splitIntoWords_cap h3 (by rw [hur])] at hw
    rcases List.mem_cons.mp hw with rfl | hmem
    · exact Or.inr (Or.inr (Or.inl ⟨d, tail.takeWhile isLo, rfl, h3,
        fun x hx => List.mem_takeWhile_imp hx⟩))
    · exact ih w hmem
  | case5 d tail h1 h2 h3 a as r hur ih =>
    intro w hw
    rw [splitIntoWords_acr h3 hur] at hw
    rcases List.mem_cons.mp hw with rfl | hmem
    · refine Or.inr (Or.inr (Or.inr ⟨by simp, ?_⟩))
      intro c hc
      apply upperRun_all_up (d :: tail)
      rw [hur]
      exact hc
    · exact ih w hmem
  | case6 d tail h1 h2 h3 ih =>
    intro w hw
    rw [splitIntoWords_sep (by simpa using h1) (by simpa using h2)
      (by simpa using h3)] at hw
    exact ih w hw

theorem split_words_alnum {cs : List Char}
    (h : ∀ c ∈ cs, isAlnum c = true) :
    ∀ w ∈ splitIntoWords cs, ∀ c ∈ w, isAlnum c = true := by
  intro w hw c hc
  apply h
  rw [← split_flatten cs h]
  exact List.mem_flatten.mpr ⟨w, hw, hc⟩

theorem split_head {cs : List Char} (h : ∀ c ∈ cs, isAlnum c = true)
    {w : List Char} {rest : List (List Char)}
    (hsplit : splitIntoWords cs = w :: rest) : w.head? = cs.head? := by
  have hfl := split_flatten cs h
  rw [hsplit] at hfl
  have hne : w ≠ [] := wordShape_ne (split_shapes cs w
    (by rw [hsplit]; exact List.mem_cons_self _ _))
  cases w with
  | nil => exact absurd rfl hne
  | cons b w' =>
    rw [← hfl]
    simp

theorem split_ne {cs : List Char} (hcs : cs ≠ [])
    (h : ∀ c ∈ cs, isAlnum c = true) : splitIntoWords cs ≠ [] := by
  intro hnil
  have hfl := split_flatten cs h
  rw [hnil] at hfl
  exact hcs hfl.symm

/-- No digit is immediately followed by a lowercase letter. -/
def noDiLo : List Char → Bool
  | a :: b :: r => !(isDi a && isLo b) && noDiLo (b :: r)
  | _ => true

theorem noDiLo_tail {a : Char} {l : List Char}
    (h : noDiLo (a :: l) = true) : noDiLo l = true := by
  cases l with
  | nil => rfl
  | cons b r =>
    have h2 : (!(isDi a && isLo b) && noDiLo (b :: r)) = true := h
    exact (Bool.and_eq_true _ _ |>.mp h2).2

theorem noDiLo_boundary {a b : Char} {l : List Char}
    (h : noDiLo (a :: b :: l) = true) (hd : isDi a = true) :
    isLo b = false := by
  have h2 : (!(isDi a && isLo b) && noDiLo (b :: l)) = true := h
  have h3 := (Bool.and_eq_true _ _ |>.mp h2).1
  simp only [hd, Bool.not_eq_true', Bool.true_and] at h3
  exact h3

theorem noDiLo_append_right : ∀ {xs ys : List Char},
    noDiLo (xs ++ ys) = true → noDiLo ys = true := by
  intro xs
  induction xs with
  | nil => intro ys h; exact h
  | cons a as ih => intro ys h; exact ih (noDiLo_tail h)

theorem noDiLo_dropWhile {p : Char → Bool} {l : List Char}
    (h : noDiLo l = true) : noDiLo (l.dropWhile p) = true := by
  have happ := List.takeWhile_append_dropWhile (p := p) (l := l)
  rw [← happ] at h
  exact noDiLo_append_right h

theorem dropWhile_head_not {p : Char → Bool} : ∀ {l : List Char} {d : Char},
    ((l.dropWhile p).head? = some d) → p d = false := by
  intro l
  induction l with
  | nil => intro d h; cases h
  | cons a as ih =>
    intro d h
    by_cases ha : p a = true
    · rw [List.dropWhile_cons, if_pos ha] at h
      exact ih h
    · rw [List.dropWhile_cons, if_neg ha] at h
      simp at h
      subst h
      simpa using ha

theorem dropWhile_digit_head : ∀ (cs : List Char) (c : Char),
    isDi c = true → noDiLo (c :: cs) = true →
    ∀ {d : Char}, ((c :: cs).dropWhile isDi).head? = some d →
    isLo d = false := by
  intro cs
  induction cs with
  | nil =>
    intro c hc _ d hd
    rw [List.dropWhile_cons, if_pos hc] at hd
    cases hd
  | cons e r ih =>
    intro c hc hdl d hd
    rw [List.dropWhile_cons, if_pos hc] at hd
    by_cases he : isDi e = true
    · exact ih e he (noDiLo_tail hdl) hd
    · rw [List.dropWhile_cons, if_neg he] at hd
      simp at hd
      subst hd
      exact noDiLo_boundary hdl hc

theorem not_lowerRun_of_head {w : List Char} {b : Char}
    (hh : w.head? = some b) (hb : isLo b = false) : ¬ lowerRun w := by
  intro hlow
  obtain ⟨hne, hall⟩ := hlow
  cases w with
  | nil => exact hne rfl
  | cons x w' =>
    have hxb : x = b := by simpa using hh
    rw [← hxb] at hb
    rw [hall x (List.mem_cons_self _ _)] at hb
    cases hb

theorem split_words_not_lower : ∀ cs : List Char,
    (∀ c ∈ cs, isAlnum c = true) → noDiLo cs = true →
    (∀ d, cs.head? = some d → isLo d = false) →
    ∀ w ∈ splitIntoWords cs, ¬ lowerRun w := by
  intro cs
  induction cs using splitIntoWords.induct with
  | case1 =>
    intro _ _ _ w hw
    rw [splitIntoWords_nil] at hw
    cases hw
  | case2 d tail hd ih =>
    intro halnum hdl hhead w hw
    have := hhead d rfl
    rw [hd] at this
    cases this
  | case3 d tail h1 hd ih =>
    intro halnum hdl hhead w hw
    rw [splitIntoWords_di hd] at hw
    rcases List.mem_cons.mp hw with rfl | hmem
    · exact not_lowerRun_of_head rfl (isDi_not_lo hd)
    · refine ih (fun c hc => halnum c (List.mem_cons_of_mem d
        ((List.dropWhile_sublist _).subset hc)))
        (noDiLo_dropWhile (noDiLo_tail hdl)) ?_ w hmem
      intro e he
      apply dropWhile_digit_head tail d hd hdl
      rw [List.dropWhile_cons, if_pos hd]
      exact he
  | case4 d tail h1 h2 h3 snd hur ih =>
    intro halnum hdl hhead w hw
    rw [splitIntoWords_cap h3 (by rw [hur])] at hw
    rcases List.mem_cons.mp hw with rfl | hmem
    · exact not_lowerRun_of_head rfl (isUp_not_lo h3)
    · refine ih (fun c hc => halnum c (List.mem_cons_of_mem d
        ((List.dropWhile_sublist _).subset hc)))
        (noDiLo_dropWhile (noDiLo_tail hdl)) ?_ w hmem
      intro e he
      exact dropWhile_head_not he
  | case5 d tail h1 h2 h3 a as r hur ih =>
    intro halnum hdl hhead w hw
    rw [splitIntoWords_acr h3 hur] at hw
    have happ := upperRun_append (d :: tail)
    rw [hur] at happ
    rcases List.mem_cons.mp hw with rfl | hmem
    · refine not_lowerRun_of_head rfl (isUp_not_lo ?_)
      apply upperRun_all_up (d :: tail)
      rw [hur]
      exact List.mem_cons_self _ _
    · refine ih (fun c hc => halnum c (by
        rw [← happ]; exact List.mem_append_right _ hc))
        (by rw [← happ] at hdl; exact noDiLo_append_right hdl) ?_ w hmem
      intro e he
      have := upperRun_rest_head (d :: tail) e (by rw [hur]; exact he)
      rcases this with h | h
      · exact h
      · rw [hur] at h
        cases h
  | case6 d tail h1 h2 h3 ih =>
    intro halnum hdl hhead w hw
    rcases alnum_cases (halnum d (List.mem_cons_self d tail)) with h | h | h
    · exact absurd h h3
    · exact absurd h h1
    · exact absurd h h2

theorem split_rest_not_lower {cs : List Char}
    (halnum : ∀ c ∈ cs, isAlnum c = true) (hdl : noDiLo cs = true)
    {w0 : List Char} {rest : List (List Char)}
    (hsplit : splitIntoWords cs = w0 :: rest) :
    ∀ w ∈ rest, ¬ lowerRun w := by
  cases cs with
  | nil =>
    rw [splitIntoWords_nil] at hsplit
    cases hsplit
  | cons c cs0 =>
    have htail_alnum : ∀ x ∈ cs0, isAlnum x = true :=
      fun x hx => halnum x (List.mem_cons_of_mem c hx)
    by_cases hlo : isLo c = true
    · rw [splitIntoWords_lo hlo] at hsplit
      injection hsplit with hw0 hrest
      subst hrest
      intro w hw
      refine split_words_not_lower _ (fun x hx => htail_alnum x
        ((List.dropWhile_sublist _).subset hx))
        (noDiLo_dropWhile (noDiLo_tail hdl)) ?_ w hw
      intro e he
      exact dropWhile_head_not he
    · by_cases hdi : isDi c = true
      · rw [splitIntoWords_di hdi] at hsplit
        injection hsplit with hw0 hrest
        subst hrest
        intro w hw
        refine split_words_not_lower _ (fun x hx => htail_alnum x
          ((List.dropWhile_sublist _).subset hx))
          (noDiLo_dropWhile (noDiLo_tail hdl)) ?_ w hw
        intro e he
        apply dropWhile_digit_head cs0 c hdi hdl
        rw [List.dropWhile_cons, if_pos hdi]
        exact he
      · by_cases hup : isUp c = true
        · cases hur : upperRun (c :: cs0) with
          | mk a r =>
            cases a with
            | nil =>
              rw [splitIntoWords_cap hup (by rw [hur])] at hsplit
              injection hsplit with hw0 hrest
              subst hrest
              intro w hw
              refine split_words_not_lower _ (fun x hx => htail_alnum x
                ((List.dropWhile_sublist _).subset hx))
                (noDiLo_dropWhile (noDiLo_tail hdl)) ?_ w hw
              intro e he
              exact dropWhile_head_not he
            | cons a0 as =>
              rw [splitIntoWords_acr hup hur] at hsplit
              injection hsplit with hw0 hrest
              subst hrest
              have happ := upperRun_append (c :: cs0)
              rw [hur] at happ
              intro w hw
              refine split_words_not_lower _ (fun x hx => halnum x (by
                  rw [← happ]; exact List.mem_append_right _ hx))
                (by rw [← happ] at hdl; exact noDiLo_append_right hdl)
                ?_ w hw
              intro e he
              have := upperRun_rest_head (c :: cs0) e (by rw [hur]; exact he)
              rcases this with h | h
              · exact h
              · rw [hur] at h
                cases h
        · rcases alnum_cases (halnum c (List.mem_cons_self c cs0)) with
            h | h | h
          · exact absurd h hup
          · exact absurd h hlo
          · exact absurd h hdi

/-- The styled word list: first word under the first-word transform, rest
under the rest transform. -/
def styledWords (uppercase : Bool) : List (List Char) → List (List Char)
  | [] => []
  | w :: rest => firstStyle uppercase w :: rest.map restStyle

theorem combineWords_python {u : UnicodeProps} {uppercase : Bool}
    {ws : List (List Char)} (hne : ws ≠ [])
    (halnum : ∀ w ∈ ws, ∀ c ∈ w, isAlnum c = true)
    (hwne : ∀ w ∈ ws, w ≠ []) :
    combineWords ws legalizeName
      (if uppercase then firstUpperWordStyle else allLowerWordStyle)
      firstUpperWordStyle
      (if uppercase then allUpperWordStyle else allLowerWordStyle)
      allUpperWordStyle (isStartCharacter u) =
    (match (styledWords uppercase ws).flatten with
      | [] => []
      | b :: _ =>
          if isStartCharacter u b then (styledWords uppercase ws).flatten
          else '_' :: (styledWords uppercase ws).flatten) := by
  unfold combineWords
  have hmap : ws.map legalizeName = ws :=
    mapFix (fun w hw => legalizeName_fixes (halnum w hw))
  have hfil : ws.filter (fun w => !w.isEmpty) = ws :=
    List.filter_eq_self.mpr (fun w hw => by
      simpa using hwne w hw)
  simp only [hmap, hfil]
  have hemp : ws.isEmpty = false := by
    cases ws with
    | nil => exact absurd rfl hne
    | cons w rest => rfl
  simp only [hemp, Bool.false_eq_true, if_false]
  cases ws with
  | nil => exact absurd rfl hne
  | cons w rest =>
    cases uppercase <;>
      simp only [styledWords, firstStyle, restStyle, List.flatten_cons,
        if_true, if_false, Bool.false_eq_true, Bool.true_eq_false] <;>
      rfl

theorem letter_not_digit {c : Char} (h : isAsciiLetter c = true) :
    isDi c = false := by
  simp only [isAsciiLetter, isUp, isLo, Bool.or_eq_true,
    decide_eq_true_eq] at h
  simp only [isDi, decide_eq_false_iff_not]
  omega

theorem letter_toUp {c : Char} (h : isAsciiLetter c = true) :
    isAsciiLetter (toUp c) = true := by
  simp only [isAsciiLetter, Bool.or_eq_true] at h ⊢
  rcases h with hu | hl
  · rw [toUp_eq_of_up hu]; exact Or.inl hu
  · exact Or.inl (isLo_toUp hl)

theorem letter_toLo {c : Char} (h : isAsciiLetter c = true) :
    isAsciiLetter (toLo c) = true := by
  simp only [isAsciiLetter, Bool.or_eq_true] at h ⊢
  rcases h with hu | hl
  · exact Or.inr (isUp_toLo hu)
  · rw [toLo_eq_of_lo hl]; exact Or.inr hl

theorem firstStyle_ne {uppercase : Bool} {w : List Char} (h : w ≠ []) :
    firstStyle uppercase w ≠ [] := by
  cases w with
  | nil => exact absurd rfl h
  | cons c cs =>
    unfold firstStyle allUpperWordStyle allLowerWordStyle firstUpperWordStyle
    by_cases hau : isAllUpper (c :: cs) = true <;>
      cases uppercase <;> simp [hau]

theorem restStyle_ne {w : List Char} (h : w ≠ []) : restStyle w ≠ [] := by
  cases w with
  | nil => exact absurd rfl h
  | cons c cs =>
    unfold restStyle allUpperWordStyle firstUpperWordStyle
    by_cases hau : isAllUpper (c :: cs) = true <;> simp [hau]

theorem map_toLo_alnum {w : List Char} (h : ∀ c ∈ w, isAlnum c = true) :
    ∀ c ∈ w.map toLo, isAlnum c = true := by
  intro c hc
  obtain ⟨x, hx, rfl⟩ := List.mem_map.mp hc
  exact isAlnum_toLo (h x hx)

theorem map_toUp_alnum {w : List Char} (h : ∀ c ∈ w, isAlnum c = true) :
    ∀ c ∈ w.map toUp, isAlnum c = true := by
  intro c hc
  obtain ⟨x, hx, rfl⟩ := List.mem_map.mp hc
  exact isAlnum_toUp (h x hx)

theorem firstUpper_alnum {w : List Char} (h : ∀ c ∈ w, isAlnum c = true) :
    ∀ c ∈ firstUpperWordStyle w, isAlnum c = true := by
  cases w with
  | nil => intro c hc; cases hc
  | cons a as =>
    intro c hc
    simp only [firstUpperWordStyle] at hc
    rcases List.mem_cons.mp hc with rfl | hmem
    · exact isAlnum_toUp (h a (List.mem_cons_self a as))
    · exact map_toLo_alnum (fun x hx => h x (List.mem_cons_of_mem a hx))
        c hmem

theorem firstStyle_alnum {uppercase : Bool} {w : List Char}
    (h : ∀ c ∈ w, isAlnum c = true) :
    ∀ c ∈ firstStyle uppercase w, isAlnum c = true := by
  unfold firstStyle
  by_cases hau : isAllUpper w = true <;> cases uppercase <;>
    simp only [hau, if_true, if_false, Bool.false_eq_true, Bool.true_eq_false]
  · exact map_toLo_alnum h
  · exact map_toUp_alnum h
  · exact map_toLo_alnum h
  · exact firstUpper_alnum h

theorem restStyle_alnum {w : List Char}
    (h : ∀ c ∈ w, isAlnum c = true) :
    ∀ c ∈ restStyle w, isAlnum c = true := by
  unfold restStyle
  by_cases hau : isAllUpper w = true <;>
    simp only [hau, if_true, if_false, Bool.false_eq_true]
  · exact map_toUp_alnum h
  · exact firstUpper_alnum h

theorem noDiLo_of_noDigit : ∀ {l : List Char},
    (∀ c ∈ l, isDi c = false) → noDiLo l = true := by
  intro l
  induction l with
  | nil => intro _; rfl
  | cons a l' ih =>
    intro h
    cases l' with
    | nil => rfl
    | cons b r =>
      show (!(isDi a && isLo b) && noDiLo (b :: r)) = true
      rw [h a (List.mem_cons_self _ _)]
      simp only [Bool.false_and, Bool.not_false, Bool.true_and]
      exact ih (fun c hc => h c (List.mem_cons_of_mem a hc))

theorem noDiLo_of_noLower : ∀ {l : List Char},
    (∀ c ∈ l, isLo c = false) → noDiLo l = true := by
  intro l
  induction l with
  | nil => intro _; rfl
  | cons a l' ih =>
    intro h
    cases l' with
    | nil => rfl
    | cons b r =>
      show (!(isDi a && isLo b) && noDiLo (b :: r)) = true
      rw [h b (List.mem_cons_of_mem a (List.mem_cons_self _ _))]
      simp only [Bool.and_false, Bool.not_false, Bool.true_and]
      exact ih (fun c hc => h c (List.mem_cons_of_mem a hc))

theorem noDiLo_append_words {w v : List Char} (hw : noDiLo w = true)
    (hv : noDiLo v = true)
    (hhead : ∀ d, v.head? = some d → isLo d = false) :
    noDiLo (w ++ v) = true := by
  induction w with
  | nil => exact hv
  | cons a w' ih =>
    cases w' with
    | nil =>
      cases v with
      | nil => rfl
      | cons b v' =>
        show (!(isDi a && isLo b) && noDiLo (b :: v')) = true
        rw [hhead b rfl]
        simpa using hv
    | cons a2 w'' =>
      show (!(isDi a && isLo a2) && noDiLo ((a2 :: w'') ++ v)) = true
      have h1 : (!(isDi a && isLo a2)) = true := by
        have h2 : (!(isDi a && isLo a2) && noDiLo (a2 :: w'')) = true := hw
        exact (Bool.and_eq_true _ _ |>.mp h2).1
      rw [h1, Bool.true_and]
      exact ih (noDiLo_tail hw)

theorem noDiLo_concat : ∀ (vs : List (List Char)) (w : List Char),
    noDiLo w = true →
    (∀ v ∈ vs, noDiLo v = true ∧ (∀ d, v.head? = some d → isLo d = false)) →
    noDiLo (w ++ vs.flatten) = true := by
  intro vs
  induction vs with
  | nil => intro w hw _; simpa using hw
  | cons v vs' ih =>
    intro w hw hvs
    rw [List.flatten_cons, ← List.append_assoc]
    apply ih (w ++ v)
    · exact noDiLo_append_words hw (hvs v (List.mem_cons_self _ _)).1
        (hvs v (List.mem_cons_self _ _)).2
    · exact fun v' hv' => hvs v' (List.mem_cons_of_mem v hv')

theorem shape_class {w : List Char} (hs : wordShape w) :
    (∀ c ∈ w, isAsciiLetter c = true) ∨ (∀ c ∈ w, isDi c = true) := by
  rcases hs with h | h | h | h
  · exact Or.inl (fun c hc => by simp [isAsciiLetter, h.2 c hc])
  · exact Or.inr h.2
  · left
    obtain ⟨c0, t, rfl, hc0, ht⟩ := h
    intro c hc
    rcases List.mem_cons.mp hc with rfl | hmem
    · simp [isAsciiLetter, hc0]
    · simp [isAsciiLetter, ht c hmem]
  · exact Or.inl (fun c hc => by simp [isAsciiLetter, h.2 c hc])

theorem firstStyle_fix_digit {uppercase : Bool} {w : List Char}
    (h : digitRun w) : firstStyle uppercase w = w := by
  cases uppercase
  · exact firstStyle_fix_false (Or.inr h)
  · exact firstStyle_fix_true (Or.inl h)

theorem map_toUp_letters {w : List Char}
    (h : ∀ c ∈ w, isAsciiLetter c = true) :
    ∀ c ∈ w.map toUp, isAsciiLetter c = true := by
  intro c hc
  obtain ⟨x, hx, rfl⟩ := List.mem_map.mp hc
  exact letter_toUp (h x hx)

theorem map_toLo_letters {w : List Char}
    (h : ∀ c ∈ w, isAsciiLetter c = true) :
    ∀ c ∈ w.map toLo, isAsciiLetter c = true := by
  intro c hc
  obtain ⟨x, hx, rfl⟩ := List.mem_map.mp hc
  exact letter_toLo (h x hx)

theorem firstUpper_letters {w : List Char}
    (h : ∀ c ∈ w, isAsciiLetter c = true) :
    ∀ c ∈ firstUpperWordStyle w, isAsciiLetter c = true := by
  cases w with
  | nil => intro c hc; cases hc
  | cons a as =>
    intro c hc
    simp only [firstUpperWordStyle] at hc
    rcases List.mem_cons.mp hc with rfl | hmem
    · exact letter_toUp (h a (List.mem_cons_self a as))
    · exact map_toLo_letters (fun x hx => h x (List.mem_cons_of_mem a hx))
        c hmem

theorem restStyle_letters {w : List Char}
    (h : ∀ c ∈ w, isAsciiLetter c = true) :
    ∀ c ∈ restStyle w, isAsciiLetter c = true := by
  unfold restStyle
  by_cases hau : isAllUpper w = true <;>
    simp only [hau, if_true, if_false, Bool.false_eq_true]
  · exact map_toUp_letters h
  · exact firstUpper_letters h

theorem firstStyle_letters {uppercase : Bool} {w : List Char}
    (h : ∀ c ∈ w, isAsciiLetter c = true) :
    ∀ c ∈ firstStyle uppercase w, isAsciiLetter c = true := by
  unfold firstStyle
  by_cases hau : isAllUpper w = true <;> cases uppercase <;>
    simp only [hau, if_true, if_false, Bool.false_eq_true, Bool.true_eq_false]
  · exact map_toLo_letters h
  · exact map_toUp_letters h
  · exact map_toLo_letters h
  · exact firstUpper_letters h

theorem restStyle_head {c : Char} {cs : List Char} :
    (restStyle (c :: cs)).head? = some (toUp c) := by
  unfold restStyle allUpperWordStyle firstUpperWordStyle
  by_cases hau : isAllUpper (c :: cs) = true <;> simp [hau]

theorem firstStyle_head_true {c : Char} {cs : List Char} :
    (firstStyle true (c :: cs)).head? = some (toUp c) := by
  unfold firstStyle allUpperWordStyle firstUpperWordStyle
  by_cases hau : isAllUpper (c :: cs) = true <;> simp [hau]

theorem firstStyle_head_false {c : Char} {cs : List Char} :
    (firstStyle false (c :: cs)).head? = some (toLo c) := by
  rw [firstStyle_false_eq]
  simp [allLowerWordStyle]

theorem styled_noDiLo_rest {w : List Char} (hs : wordShape w)
    (halnum : ∀ c ∈ w, isAlnum c = true) :
    noDiLo (restStyle w) = true ∧
    (∀ d, (restStyle w).head? = some d → isLo d = false) := by
  constructor
  · rcases shape_class hs with hlet | hdig
    · exact noDiLo_of_noDigit
        (fun c hc => letter_not_digit (restStyle_letters hlet c hc))
    · have hfix : restStyle w = w := restStyle_fix (Or.inl ⟨wordShape_ne hs, hdig⟩)
      rw [hfix]
      exact noDiLo_of_noLower (fun c hc => isDi_not_lo (hdig c hc))
  · intro d hd
    cases w with
    | nil => exact absurd rfl (wordShape_ne hs)
    | cons c cs =>
      rw [restStyle_head] at hd
      have hcd : toUp c = d := by simpa using hd
      rw [← hcd]
      exact isLo_toUp_false (halnum c (List.mem_cons_self c cs))

theorem styled_noDiLo_first {uppercase : Bool} {w : List Char}
    (hs : wordShape w) (halnum : ∀ c ∈ w, isAlnum c = true) :
    noDiLo (firstStyle uppercase w) = true := by
  rcases shape_class hs with hlet | hdig
  · exact noDiLo_of_noDigit
      (fun c hc => letter_not_digit (firstStyle_letters hlet c hc))
  · have hfix : firstStyle uppercase w = w :=
      firstStyle_fix_digit ⟨wordShape_ne hs, hdig⟩
    rw [hfix]
    exact noDiLo_of_noLower (fun c hc => isDi_not_lo (hdig c hc))

theorem head?_append_left {α : Type} {l l2 : List α} (h : l ≠ []) :
    (l ++ l2).head? = l.head? := by
  cases l with
  | nil => exact absurd rfl h
  | cons a as => rfl

theorem body_props {uppercase : Bool} {w0 : List Char}
    {rest : List (List Char)} (hs0 : wordShape w0)
    (hsr : ∀ w ∈ rest, wordShape w)
    (ha0 : ∀ c ∈ w0, isAlnum c = true)
    (har : ∀ w ∈ rest, ∀ c ∈ w, isAlnum c = true) :
    (∀ c ∈ (styledWords uppercase (w0 :: rest)).flatten, isAlnum c = true) ∧
    noDiLo (styledWords uppercase (w0 :: rest)).flatten = true ∧
    ∃ b0 b', (styledWords uppercase (w0 :: rest)).flatten = b0 :: b' ∧
      isAlnum b0 = true ∧
      (uppercase = true → isLo b0 = false) ∧
      (uppercase = false → isUp b0 = false) := by
  have hbody : (styledWords uppercase (w0 :: rest)).flatten =
      firstStyle uppercase w0 ++ (rest.map restStyle).flatten := by
    simp [styledWords]
  refine ⟨?_, ?_, ?_⟩
  · rw [hbody]
    intro c hc
    rcases List.mem_append.mp hc with hc1 | hc2
    · exact firstStyle_alnum ha0 c hc1
    · obtain ⟨v, hv, hcv⟩ := List.mem_flatten.mp hc2
      obtain ⟨w, hw, rfl⟩ := List.mem_map.mp hv
      exact restStyle_alnum (har w hw) c hcv
  · rw [hbody]
    apply noDiLo_concat
    · exact styled_noDiLo_first hs0 ha0
    · intro v hv
      obtain ⟨w, hw, rfl⟩ := List.mem_map.mp hv
      exact styled_noDiLo_rest (hsr w hw) (har w hw)
  · rw [hbody]
    cases w0 with
    | nil => exact absurd rfl (wordShape_ne hs0)
    | cons c cs =>
      have hfne : firstStyle uppercase (c :: cs) ≠ [] :=
        firstStyle_ne (by simp)
      have hc_alnum : isAlnum c = true := ha0 c (List.mem_cons_self c cs)
      cases hfs : firstStyle uppercase (c :: cs) with
      | nil => exact absurd hfs hfne
      | cons b0 fs' =>
        refine ⟨b0, fs' ++ (rest.map restStyle).flatten, by simp, ?_, ?_, ?_⟩
        · -- b0 is a character of the styled first word
          have : b0 ∈ firstStyle uppercase (c :: cs) := by
            rw [hfs]; exact List.mem_cons_self _ _
          exact firstStyle_alnum ha0 b0 this
        · intro hup
          subst hup
          have hh := @firstStyle_head_true c cs
          rw [hfs] at hh
          have : toUp c = b0 := by simpa using hh.symm
          rw [← this]
          exact isLo_toUp_false hc_alnum
        · intro hup
          subst hup
          have hh := @firstStyle_head_false c cs
          rw [hfs] at hh
          have : toLo c = b0 := by simpa using hh.symm
          rw [← this]
          exact isUp_toLo_false hc_alnum

theorem styled_split_fix {uppercase : Bool} {b : List Char} (hne : b ≠ [])
    (halnum : ∀ c ∈ b, isAlnum c = true) (hdl : noDiLo b = true)
    (hhT : uppercase = true → ∀ d, b.head? = some d → isLo d = false)
    (hhF : uppercase = false → ∀ d, b.head? = some d → isUp d = false) :
    (styledWords uppercase (splitIntoWords b)).flatten = b := by
  cases hsp : splitIntoWords b with
  | nil => exact absurd hsp (split_ne hne halnum)
  | cons w0 rest =>
    have hs0 : wordShape w0 := split_shapes b w0
      (by rw [hsp]; exact List.mem_cons_self _ _)
    have hsr : ∀ w ∈ rest, wordShape w := fun w hw => split_shapes b w
      (by rw [hsp]; exact List.mem_cons_of_mem _ hw)
    have hrfix : ∀ w ∈ rest, restStyle w = w := by
      intro w hw
      have hnl : ¬ lowerRun w := split_rest_not_lower halnum hdl hsp w hw
      rcases hsr w hw with h | h | h | h
      · exact absurd h hnl
      · exact restStyle_fix (Or.inl h)
      · exact restStyle_fix (Or.inr (Or.inl h))
      · exact restStyle_fix (Or.inr (Or.inr h))
    have hhead := split_head halnum hsp
    have hffix : firstStyle uppercase w0 = w0 := by
      cases uppercase
      · -- lowercase policy: the first word is a lower or digit run
        rcases hs0 with h | h | h | h
        · exact firstStyle_fix_false (Or.inl h)
        · exact firstStyle_fix_false (Or.inr h)
        · obtain ⟨c, t, hw0, hc, ht⟩ := h
          have : b.head? = some c := by rw [← hhead, hw0]; rfl
          rw [hhF rfl c this] at hc
          cases hc
        · obtain ⟨hne0, hall⟩ := h
          cases w0 with
          | nil => exact absurd rfl hne0
          | cons c t =>
            have hh : b.head? = some c := by rw [← hhead]; rfl
            have h1 : isUp c = false := hhF rfl c hh
            have h2 : isUp c = true := hall c (List.mem_cons_self c t)
            rw [h1] at h2
            cases h2
      · -- uppercase policy: the first word is not a lowercase run
        have hnl : ¬ lowerRun w0 := by
          cases w0 with
          | nil => intro hl; exact hl.1 rfl
          | cons c t =>
            have : b.head? = some c := by rw [← hhead]; rfl
            exact not_lowerRun_of_head rfl (hhT rfl c this)
        rcases hs0 with h | h | h | h
        · exact absurd h hnl
        · exact firstStyle_fix_true (Or.inl h)
        · exact firstStyle_fix_true (Or.inr (Or.inl h))
        · exact firstStyle_fix_true (Or.inr (Or.inr h))
    have hflat := split_flatten b halnum
    rw [hsp] at hflat
    simp only [styledWords, hffix, mapFix hrfix]
    exact hflat

theorem split_underscore (b : List Char) :
    splitIntoWords ('_' :: b) = splitIntoWords b :=
  splitIntoWords_sep (by decide) (by decide) (by decide)

theorem alnum_letter_or_digit {c : Char} (h : isAlnum c = true) :
    isAsciiLetter c = true ∨ isDi c = true := by
  rcases alnum_cases h with hu | hl | hd
  · exact Or.inl (by simp [isAsciiLetter, hu])
  · exact Or.inl (by simp [isAsciiLetter, hl])
  · exact Or.inr hd

theorem start_of_letter {u : UnicodeProps} (hu : AsciiConformant u)
    {c : Char} (h : isAsciiLetter c = true) :
    isStartCharacter u c = true := by
  simp [isStartCharacter, hu.1 c h]

theorem start_of_digit {u : UnicodeProps} (hu : AsciiConformant u)
    {c : Char} (h : isDi c = true) : isStartCharacter u c = false := by
  have h95 : ¬ (c.toNat = 95) := by
    simp only [isDi, decide_eq_true_eq] at h
    omega
  simp [isStartCharacter, hu.2.1 c h, h95]

theorem styleFix_letter (u : UnicodeProps) (hu : AsciiConformant u)
    (uppercase : Bool) {b : List Char} (hne : b ≠ [])
    (halnum : ∀ c ∈ b, isAlnum c = true) (hdl : noDiLo b = true)
    (hhT : uppercase = true → ∀ d, b.head? = some d → isLo d = false)
    (hhF : uppercase = false → ∀ d, b.head? = some d → isUp d = false)
    (hstart : ∀ d, b.head? = some d → isAsciiLetter d = true) :
    pythonNameStyle u uppercase (String.mk b) = String.mk b := by
  unfold pythonNameStyle
  have hdata : (String.mk b).data = b := rfl
  rw [hdata]
  have hws_alnum := split_words_alnum halnum
  have hws_wne : ∀ w ∈ splitIntoWords b, w ≠ [] :=
    fun w hw => wordShape_ne (split_shapes b w hw)
  rw [combineWords_python (split_ne hne halnum) hws_alnum hws_wne]
  rw [styled_split_fix hne halnum hdl hhT hhF]
  cases b with
  | nil => exact absurd rfl hne
  | cons b0 b' =>
    have hst : isStartCharacter u b0 = true :=
      start_of_letter hu (hstart b0 rfl)
    simp [hst]

theorem styleFix_digit (u : UnicodeProps) (hu : AsciiConformant u)
    (uppercase : Bool) {b : List Char} (hne : b ≠ [])
    (halnum : ∀ c ∈ b, isAlnum c = true) (hdl : noDiLo b = true)
    (hhT : uppercase = true → ∀ d, b.head? = some d → isLo d = false)
    (hhF : uppercase = false → ∀ d, b.head? = some d → isUp d = false)
    (hstart : ∀ d, b.head? = some d → isDi d = true) :
    pythonNameStyle u uppercase (String.mk ('_' :: b)) =
      String.mk ('_' :: b) := by
  unfold pythonNameStyle
  have hdata : (String.mk ('_' :: b)).data = '_' :: b := rfl
  rw [hdata, split_underscore]
  have hws_alnum := split_words_alnum halnum
  have hws_wne : ∀ w ∈ splitIntoWords b, w ≠ [] :=
    fun w hw => wordShape_ne (split_shapes b w hw)
  rw [combineWords_python (split_ne hne halnum) hws_alnum hws_wne]
  rw [styled_split_fix hne halnum hdl hhT hhF]
  cases b with
  | nil => exact absurd rfl hne
  | cons b0 b' =>
    have hst : isStartCharacter u b0 = false :=
      start_of_digit hu (hstart b0 rfl)
    simp [hst]

theorem style_empty (u : UnicodeProps) (hu : AsciiConformant u)
    (uppercase : Bool) {s : String} (h : s.data = []) :
    pythonNameStyle u uppercase s =
      (if uppercase then "Empty" else "empty") := by
  have hE : isStartCharacter u 'E' = true :=
    start_of_letter hu (by decide)
  have he : isStartCharacter u 'e' = true :=
    start_of_letter hu (by decide)
  unfold pythonNameStyle
  rw [h, splitIntoWords_nil]
  unfold combineWords
  have hau : isAllUpper ['e', 'm', 'p', 't', 'y'] = false := by decide
  cases uppercase <;>
    simp [hau, hE, he, firstUpperWordStyle, allLowerWordStyle, toLo, toUp,
      isLo, isUp] <;> try rfl

/-- C9: the name-styling function is idempotent: for every ASCII
alphanumeric input label and either case policy, restyling the styled name
reproduces it unchanged. -/
theorem claim_C9 (u : UnicodeProps) (hu : AsciiConformant u)
    (uppercase : Bool) (s : String) (hs : s.data.all isAlnum = true) :
    pythonNameStyle u uppercase (pythonNameStyle u uppercase s) =
      pythonNameStyle u uppercase s := by
  have halnum : ∀ c ∈ s.data, isAlnum c = true :=
    fun c hc => List.all_eq_true.mp hs c hc
  by_cases hempty : s.data = []
  · rw [style_empty u hu uppercase hempty]
    cases uppercase
    · simp only [Bool.false_eq_true, if_false]
      show pythonNameStyle u false (String.mk "empty".data) =
        String.mk "empty".data
      apply styleFix_letter u hu false (by decide) (by decide) (by decide)
        (fun hff => by cases hff)
      · intro _ d hd
        have hde : 'e' = d := by simpa using hd
        subst hde
        decide
      · intro d hd
        have hde : 'e' = d := by simpa using hd
        subst hde
        decide
    · simp only [if_true]
      show pythonNameStyle u true (String.mk "Empty".data) =
        String.mk "Empty".data
      apply styleFix_letter u hu true (by decide) (by decide) (by decide)
        ?_ (fun hff => by cases hff)
      · intro d hd
        have hde : 'E' = d := by simpa using hd
        subst hde
        decide
      · intro _ d hd
        have hde : 'E' = d := by simpa using hd
        subst hde
        decide
  · have hws_ne : splitIntoWords s.data ≠ [] := split_ne hempty halnum
    obtain ⟨w0, rest, hsp⟩ : ∃ w0 rest,
        splitIntoWords s.data = w0 :: rest := by
      cases hh : splitIntoWords s.data with
      | nil => exact absurd hh hws_ne
      | cons a tl => exact ⟨a, tl, rfl⟩
    have hs0 : wordShape w0 := split_shapes s.data w0
      (by rw [hsp]; exact List.mem_cons_self _ _)
    have hsr : ∀ w ∈ rest, wordShape w := fun w hw => split_shapes s.data w
      (by rw [hsp]; exact List.mem_cons_of_mem _ hw)
    have ha0 : ∀ c ∈ w0, isAlnum c = true := split_words_alnum halnum w0
      (by rw [hsp]; exact List.mem_cons_self _ _)
    have har : ∀ w ∈ rest, ∀ c ∈ w, isAlnum c = true :=
      fun w hw => split_words_alnum halnum w
        (by rw [hsp]; exact List.mem_cons_of_mem _ hw)
    obtain ⟨hbal, hbdl, b0, b', hbody, hb0al, hb0T, hb0F⟩ :=
      @body_props uppercase w0 rest hs0 hsr ha0 har
    have hws_alnum := split_words_alnum halnum
    have hws_wne : ∀ w ∈ splitIntoWords s.data, w ≠ [] :=
      fun w hw => wordShape_ne (split_shapes s.data w hw)
    have h1 : pythonNameStyle u uppercase s = String.mk
        (if isStartCharacter u b0 then b0 :: b' else '_' :: (b0 :: b')) := by
      unfold pythonNameStyle
      rw [combineWords_python hws_ne hws_alnum hws_wne]
      rw [hsp, hbody]
    have hbal' : ∀ c ∈ b0 :: b', isAlnum c = true := by
      rw [← hbody]
      exact hbal
    have hbdl' : noDiLo (b0 :: b') = true := by
      rw [← hbody]
      exact hbdl
    have hhT' : uppercase = true → ∀ d, (b0 :: b').head? = some d →
        isLo d = false := by
      intro hup d hd
      have : d = b0 := by simpa using hd.symm
      subst this
      exact hb0T hup
    have hhF' : uppercase = false → ∀ d, (b0 :: b').head? = some d →
        isUp d = false := by
      intro hup d hd
      have : d = b0 := by simpa using hd.symm
      subst this
      exact hb0F hup
    rcases alnum_letter_or_digit hb0al with hlet | hdig
    · have hst : isStartCharacter u b0 = true := start_of_letter hu hlet
      rw [hst] at h1
      simp only [if_true] at h1
      rw [h1]
      apply styleFix_letter u hu uppercase (by simp) hbal' hbdl' hhT' hhF'
      intro d hd
      have : d = b0 := by simpa using hd.symm
      subst this
      exact hlet
    · have hst : isStartCharacter u b0 = false := start_of_digit hu hdig
      rw [hst] at h1
      simp only [Bool.false_eq_true, if_false] at h1
      rw [h1]
      apply styleFix_digit u hu uppercase (by simp) hbal' hbdl' hhT' hhF'
      intro d hd
      have : d = b0 := by simpa using hd.symm
      subst this
      exact hdig

/-- Witness for C9 at a concrete camel-cased alphanumeric label under both
case policies. -/
theorem claim_C9_witness :
    pythonNameStyle asciiTable true
        (pythonNameStyle asciiTable true "helloWorld42") =
      pythonNameStyle asciiTable true "helloWorld42" ∧
    pythonNameStyle asciiTable false
        (pythonNameStyle asciiTable false "helloWorld42") =
      pythonNameStyle asciiTable false "helloWorld42" :=
  ⟨claim_C9 asciiTable asciiTable_conformant true "helloWorld42" (by decide),
   claim_C9 asciiTable asciiTable_conformant false "helloWorld42" (by decide)⟩

end PythonRenderer
